import Mathlib

/-!
# Verification of the arithmetic-coding text compressor

Shallow embedding of `src/utilities/compressor.py`: the 32-bit integer
`ArithmeticCoder` (encode/decode with E1/E2/E3 renormalization) and the
word-level `TextCompressor` (vocabulary training, escape mechanism,
container format).  Python integers are embedded as `Int`, Python `//`
(floor division) as `Int.fdiv`, and the unbounded `while` loops of the
renormalization steps as fuel-indexed recursions returning `none` when
the fuel runs out (the loops either terminate within `PRECISION_BITS + 1`
iterations or run forever; sufficiency of the fixed fuel is proved below
for the states that arise).  Tokens (Python `str`) are embedded as their
UTF-8 byte sequences (`List Nat`), which is faithful because UTF-8
encoding is injective and every string operation the compressor performs
is byte-aligned.
-/

namespace ACV

/-- A bit is the literal integer `0` or `1`, as in the source, which builds
explicit lists of `0`/`1` values. -/
abbrev Bit := Nat

/-- `ArithmeticCoder.PRECISION_BITS = 32`. -/
def PRECISION_BITS : Nat := 32

/-- `MAX_RANGE = (1 << PRECISION_BITS) - 1`. -/
def MAX_RANGE : Int := 2 ^ PRECISION_BITS - 1

/-- `HALF = 1 << (PRECISION_BITS - 1)`. -/
def HALF : Int := 2 ^ (PRECISION_BITS - 1)

/-- `QUARTER = 1 << (PRECISION_BITS - 2)`. -/
def QUARTER : Int := 2 ^ (PRECISION_BITS - 2)

/-- `THREE_QUARTERS = HALF + QUARTER`. -/
def THREE_QUARTERS : Int := HALF + QUARTER

/-- Fuel bound used for the renormalization loops.  The loops double the
width of the working interval on every iteration and only run while the
width is at most `HALF`, so from a non-empty sub-interval of
`[0, MAX_RANGE]` they stop within 33 iterations; 64 is comfortably more. -/
def RENORM_FUEL : Nat := 64

/-- The cumulative-table layout loop of `ArithmeticCoder.__init__`:
starting from a running total `c`, each `(symbol, freq)` pair in order is
assigned the half-open interval `(c, c + freq)` and the running total
advances by `freq`. -/
def cumChain (c : Int) : List (Int × Int) → List (Int × Int × Int)
  | [] => []
  | (s, f) :: rest => (s, c, c + f) :: cumChain (c + f) rest

/-- `sorted(frequencies.keys())` followed by the dict lookups: for a dict
(distinct keys) this is exactly the list of pairs sorted by key. -/
def sortByKey (freqs : List (Int × Int)) : List (Int × Int) :=
  List.insertionSort (fun a b => a.1 ≤ b.1) freqs

/-- State built by `ArithmeticCoder.__init__`: the raw frequency dict, the
cumulative table (in sorted-key iteration order, which is also the dict
iteration order used by `decode`), and `total_freq`. -/
structure ArithmeticCoder where
  frequencies : List (Int × Int)
  cum_freq : List (Int × Int × Int)
  total_freq : Int
  deriving Repr, DecidableEq

/-- `ArithmeticCoder.__init__`: `total_freq` is the sum of all frequency
values and `cum_freq` lays out cumulative intervals over the symbols in
ascending key order.  The constructor never fails. -/
def mkCoder (freqs : List (Int × Int)) : ArithmeticCoder :=
  { frequencies := freqs
    cum_freq := cumChain 0 (sortByKey freqs)
    total_freq := (freqs.map Prod.snd).sum }

/-- The renormalization `while` loop inside `ArithmeticCoder.encode`.
Returns the bits emitted by this loop (in emission order: the source
appends them to a shared list) together with the final
`(low, high, pending)`.  `none` models non-termination (fuel exhausted;
justified by `encodeRenorm_fuel` below).  The Python updates
`low -= HALF; low = low << 1` etc. are composed here, and
`(high << 1) | 1 = 2 * high + 1` for every integer `high`. -/
def encodeRenorm : Nat → Int → Int → Nat → Option (List Bit × Int × Int × Nat)
  | 0, _, _, _ => none
  | fuel + 1, low, high, pending =>
    if high < HALF then
      match encodeRenorm fuel (2 * low) (2 * high + 1) 0 with
      | none => none
      | some (bits, l, h, p) => some (0 :: List.replicate pending 1 ++ bits, l, h, p)
    else if HALF ≤ low then
      match encodeRenorm fuel (2 * (low - HALF)) (2 * (high - HALF) + 1) 0 with
      | none => none
      | some (bits, l, h, p) => some (1 :: List.replicate pending 0 ++ bits, l, h, p)
    else if QUARTER ≤ low ∧ high < THREE_QUARTERS then
      encodeRenorm fuel (2 * (low - QUARTER)) (2 * (high - QUARTER) + 1) (pending + 1)
    else
      some ([], low, high, pending)

/-- The main loop of `ArithmeticCoder.encode` followed by its final flush.
Processes the symbols, narrowing `[low, high]` by the symbol's cumulative
sub-interval with floor division and renormalizing; an unknown symbol is
the `ValueError` path, modelled as `none`.  On the empty list it performs
the flush: `pending_bits += 1`, then one polarity bit chosen by comparing
`low` with `QUARTER` followed by `pending_bits` complementary bits.
Returns the whole emitted bit sequence (the source accumulates the same
bits into one shared list). -/
def encodeCore (c : ArithmeticCoder) (low high : Int) (pending : Nat) :
    List Int → Option (List Bit)
  | [] =>
    if low < QUARTER then
      some (0 :: List.replicate (pending + 1) 1)
    else
      some (1 :: List.replicate (pending + 1) 0)
  | sym :: rest =>
    match c.cum_freq.lookup sym with
    | none => none
    | some (symLow, symHigh) =>
      let rangeSize := high - low + 1
      let high2 := low + (rangeSize * symHigh).fdiv c.total_freq - 1
      let low2 := low + (rangeSize * symLow).fdiv c.total_freq
      match encodeRenorm RENORM_FUEL low2 high2 pending with
      | none => none
      | some (bits, l, h, p) =>
        match encodeCore c l h p rest with
        | none => none
        | some bs => some (bits ++ bs)

/-- The byte-boundary padding of `encode`: append `0` bits until the
length is a multiple of 8. -/
def padTo8 (bits : List Bit) : List Bit :=
  bits ++ List.replicate ((8 - bits.length % 8) % 8) 0

/-- One byte from 8 bits, most significant first: `byte = (byte << 1) | b`
folded over the bits (for bits in `{0,1}` this is `2 * byte + b`). -/
def byteOfBits (bits : List Bit) : Nat :=
  bits.foldl (fun byte b => 2 * byte + b) 0

/-- The bit-to-byte packing loop of `encode`: consume 8 bits at a time.
`encode` always calls this on a list padded to a multiple of 8; the final
catch-all arm (a chunk shorter than 8 bits, unreachable after padding) is
given the same `byteOfBits` fold. -/
def bitsToBytes : List Bit → List Nat
  | [] => []
  | b0 :: b1 :: b2 :: b3 :: b4 :: b5 :: b6 :: b7 :: rest =>
    byteOfBits [b0, b1, b2, b3, b4, b5, b6, b7] :: bitsToBytes rest
  | bits => [byteOfBits bits]

/-- `ArithmeticCoder.encode`: narrow/renormalize over the symbols, flush,
pad to a byte boundary, pack. -/
def encode (c : ArithmeticCoder) (symbols : List Int) : Option (List Nat) :=
  (encodeCore c 0 MAX_RANGE 0 symbols).map (fun bits => bitsToBytes (padTo8 bits))

/-- One byte to 8 bits, most significant first:
`(byte >> i) & 1` for `i = 7, 6, ..., 0`. -/
def byteToBits (byte : Nat) : List Bit :=
  (List.range 8).map (fun i => byte / 2 ^ (7 - i) % 2)

/-- The byte-to-bit unpacking loop at the top of `decode`. -/
def bytesToBits (data : List Nat) : List Bit :=
  (data.map byteToBits).flatten

/-- `value = (value << 1) | bit` folded over a bit list, MSB first. -/
def intOfBits (bits : List Bit) : Int :=
  bits.foldl (fun v (b : Bit) => 2 * v + (b : Int)) 0

/-- The first `n` bits of a stream, reading `0` past the end:
`bits[i] if i < len(bits) else 0`. -/
def takeD (n : Nat) (bits : List Bit) : List Bit :=
  bits.take n ++ List.replicate (n - bits.length) 0

/-- The linear search of `decode`: the first `cum_freq` entry whose
half-open interval contains `scaled`. -/
def findCum (scaled : Int) : List (Int × Int × Int) → Option (Int × Int × Int)
  | [] => none
  | (s, sl, sh) :: rest =>
    if sl ≤ scaled ∧ scaled < sh then some (s, sl, sh) else findCum scaled rest

/-- The renormalization `while` loop inside `decode`: same three cases on
`(low, high)` as in `encode`, with `value` transformed alongside and one
input bit consumed per shift (`0` past the end of the input, via
`headD`/`tail`).  `none` models fuel exhaustion as in `encodeRenorm`. -/
def decodeRenorm : Nat → Int → Int → Int → List Bit → Option (Int × Int × Int × List Bit)
  | 0, _, _, _, _ => none
  | fuel + 1, low, high, value, feed =>
    if high < HALF then
      decodeRenorm fuel (2 * low) (2 * high + 1)
        (2 * value + (feed.headD 0 : Int)) feed.tail
    else if HALF ≤ low then
      decodeRenorm fuel (2 * (low - HALF)) (2 * (high - HALF) + 1)
        (2 * (value - HALF) + (feed.headD 0 : Int)) feed.tail
    else if QUARTER ≤ low ∧ high < THREE_QUARTERS then
      decodeRenorm fuel (2 * (low - QUARTER)) (2 * (high - QUARTER) + 1)
        (2 * (value - QUARTER) + (feed.headD 0 : Int)) feed.tail
    else
      some (low, high, value, feed)

/-- The main loop of `decode`: `num_symbols` iterations of scale, search,
narrow, renormalize.  When the search finds no symbol the source `break`s
and returns the symbols decoded so far. -/
def decodeCore (c : ArithmeticCoder) :
    Nat → Int → Int → Int → List Bit → Option (List Int)
  | 0, _, _, _, _ => some []
  | n + 1, low, high, value, feed =>
    let rangeSize := high - low + 1
    let scaled := ((value - low + 1) * c.total_freq - 1).fdiv rangeSize
    match findCum scaled c.cum_freq with
    | none => some []
    | some (sym, symLow, symHigh) =>
      let high2 := low + (rangeSize * symHigh).fdiv c.total_freq - 1
      let low2 := low + (rangeSize * symLow).fdiv c.total_freq
      match decodeRenorm RENORM_FUEL low2 high2 value feed with
      | none => none
      | some (l, h, v, f) =>
        match decodeCore c n l h v f with
        | none => none
        | some syms => some (sym :: syms)

/-- `ArithmeticCoder.decode`: unpack the bytes to bits, initialize `value`
from the first `PRECISION_BITS` bits (zero-padded past the end), and run
the main loop; subsequent bits are consumed in order starting at
`bit_index = PRECISION_BITS`. -/
def decode (c : ArithmeticCoder) (data : List Nat) (numSymbols : Nat) : Option (List Int) :=
  let bits := bytesToBits data
  decodeCore c numSymbols 0 MAX_RANGE (intOfBits (takeD PRECISION_BITS bits))
    (bits.drop PRECISION_BITS)

/-- Proof-side invariant: the state of the working interval `[low, high]`
at every symbol boundary of `encode` and `decode` (initially and after
each renormalization loop): `low` below `HALF`, `high` at or above it,
and not both `low` in `[QUARTER, HALF)` and `high` in `[HALF, 3/4)` —
exactly the negations of the three loop cases.  It forces
`high - low + 1 > QUARTER`. -/
def BoundaryInv (low high : Int) : Prop :=
  0 ≤ low ∧ low < HALF ∧ HALF ≤ high ∧ high ≤ MAX_RANGE ∧
    (low < QUARTER ∨ THREE_QUARTERS ≤ high)

/-- Proof-side ghost value: the decoder's `value` register at a boundary
where the encoder still has `p` pending bits and will emit exactly the
bit stream `bs` from here on.  The decoder is 32 bits ahead of the
emitted prefix plus `p` deferred positions, with the deferred carry
accounted for by the `HALF * (2^p - 1)` correction. -/
def vOf (p : Nat) (bs : List Bit) : Int :=
  intOfBits (takeD (PRECISION_BITS + p) bs) - HALF * (2 ^ p - 1)

/-- Proof-side relation: two bit feeds that agree at every position under
the decoder's read-`0`-past-the-end convention. -/
def FeedEq (f1 f2 : List Bit) : Prop := ∀ i, f1.getD i 0 = f2.getD i 0

/-- A token is the UTF-8 byte sequence of a Python string token. -/
abbrev Token := List Nat

/-- `TextCompressor.ESCAPE_SYMBOL = 0`, reserved for unknown words. -/
def ESCAPE_SYMBOL : Int := 0

/-- The UTF-8 bytes of the `'<UNK>'` sentinel. -/
def UNK : Token := [60, 85, 78, 75, 62]

/-- The trained state of a `TextCompressor`: word/ID maps, the frequency
table, and the `ArithmeticCoder` built from it.  (The source also stores
a float `entropy`, informational only, and a vocabulary file path; both
are outside the compression semantics.) -/
structure TextCompressor where
  word_to_id : List (Token × Int)
  id_to_word : List (Int × Token)
  word_frequencies : List (Int × Int)
  coder : ArithmeticCoder
  deriving Repr

/-- The token-to-symbol loop of `TextCompressor.compress`: a known word
maps to its ID, an unknown word maps to `ESCAPE_SYMBOL` and is appended
to the unknown-word list, in order. -/
def symbolsOf (wi : List (Token × Int)) : List Token → List Int × List Token
  | [] => ([], [])
  | w :: ws =>
    let rest := symbolsOf wi ws
    match wi.lookup w with
    | some i => (i :: rest.1, rest.2)
    | none => (ESCAPE_SYMBOL :: rest.1, w :: rest.2)

/-- The unknown-word sidecar of `compress`: each unknown word as a one
byte length prefix followed by its raw UTF-8 bytes.  `bytearray.append`
only accepts values below 256, so a word of 256 or more bytes raises
`ValueError`; that failure is modelled as `none`. -/
def sidecarOf : List Token → Option (List Nat)
  | [] => some []
  | w :: ws =>
    if w.length < 256 then
      (sidecarOf ws).map (fun rest => w.length :: (w ++ rest))
    else none

/-- The 6-byte container header of `compress`:
`[(n >> 16) & 0xFF, (n >> 8) & 0xFF, n & 0xFF]` for the symbol count
followed by the same three fields for the encoded-payload length. -/
def headerBytes (numSymbols encodedLen : Nat) : List Nat :=
  [numSymbols / 2 ^ 16 % 256, numSymbols / 2 ^ 8 % 256, numSymbols % 256,
   encodedLen / 2 ^ 16 % 256, encodedLen / 2 ^ 8 % 256, encodedLen % 256]

/-- `TextCompressor.compress` from the token list on (tokenization is the
external collaborator, out of the compression core): map tokens to
symbols, arithmetic-encode, build the sidecar, and concatenate
`header ++ encoded ++ unknown_data`. -/
def compressWords (tc : TextCompressor) (words : List Token) : Option (List Nat) :=
  let swu := symbolsOf tc.word_to_id words
  match encode tc.coder swu.1 with
  | none => none
  | some encoded =>
    match sidecarOf swu.2 with
    | none => none
    | some unknownData =>
      some (headerBytes swu.1.length encoded.length ++ encoded ++ unknownData)

/-- Strict UTF-8 validity (RFC 3629 / Unicode Table 3-7), exactly what
Python's `bytes.decode('utf-8')` enforces: continuation bytes in
`80..BF`, no overlong forms (lead `C0`/`C1` rejected, `E0` needs
`A0..BF`, `F0` needs `90..BF`), no surrogates (`ED` capped at `9F`),
nothing above U+10FFFF (`F4` capped at `8F`, leads `F5..FF` rejected).
`decompress` decodes each sidecar slice this way and raises
`UnicodeDecodeError` on failure.  Run as an automaton consuming one
byte per step: the state is how many continuation bytes are still
expected together with the allowed range `[lo, hi)` for the next one
(the lead byte narrows the first continuation for `E0`/`ED`/`F0`/`F4`,
later ones are plain `80..BF`). -/
def utf8Run : Nat → Nat → Nat → List Nat → Bool
  | 0, _, _, [] => true
  | _ + 1, _, _, [] => false
  | 0, _, _, b :: rest =>
    if b < 128 then utf8Run 0 0 0 rest
    else if b < 194 then false
    else if b < 224 then utf8Run 1 128 192 rest
    else if b < 240 then
      utf8Run 2 (if b = 224 then 160 else 128) (if b = 237 then 160 else 192) rest
    else if b < 245 then
      utf8Run 3 (if b = 240 then 144 else 128) (if b = 244 then 144 else 192) rest
    else false
  | n + 1, lo, hi, b :: rest =>
    if lo ≤ b ∧ b < hi then utf8Run n 128 192 rest else false

/-- See `utf8Run`, the decoder's acceptance automaton run from its start
state (no continuation bytes expected). -/
def isValidUTF8 (l : List Nat) : Bool := utf8Run 0 0 0 l

/-- The symbol-to-word loop of `decompress`: every escape symbol consumes
the next length-prefixed sidecar entry (the bytes
`unknown_data[offset+1 : offset+1+length]`, which Python slicing
truncates at the end of the data) or yields `'<UNK>'` once the sidecar
is exhausted; every other ID resolves through `id_to_word` with
`'<UNK>'` as default.  Each consumed sidecar slice passes through
`bytes.decode('utf-8')`, whose `UnicodeDecodeError` on invalid UTF-8 is
modelled as `none`; the loop keeps the slice's raw bytes, as joining
and returning the final text re-encodes the decoded string. -/
def wordsOfSymbols (iw : List (Int × Token)) (unknownData : List Nat) :
    List Int → Nat → Option (List Token)
  | [], _ => some []
  | sym :: rest, off =>
    if sym == ESCAPE_SYMBOL then
      if off < unknownData.length then
        let len := unknownData.getD off 0
        let w := (unknownData.drop (off + 1)).take len
        if isValidUTF8 w then
          (wordsOfSymbols iw unknownData rest (off + 1 + len)).map (fun ws => w :: ws)
        else none
      else
        (wordsOfSymbols iw unknownData rest off).map (fun ws => UNK :: ws)
    else
      (wordsOfSymbols iw unknownData rest off).map
        (fun ws =>
          (match iw.lookup sym with
           | some w => w
           | none => UNK) :: ws)

/-- `TextCompressor.decompress` up to the `words` list (lines 351-381):
inputs shorter than the 6-byte header yield no words at all (the source
returns `""`), otherwise the header is parsed, the payload is sliced to
the declared length, the arithmetic decoder runs, and the symbols are
mapped back to tokens.  For actual byte strings (entries below 256) the
header arithmetic `b0 * 2^16 + b1 * 2^8 + b2` equals the source's
`(b0 << 16) | (b1 << 8) | b2`. -/
def decompressWords (tc : TextCompressor) (compressed : List Nat) : Option (List Token) :=
  if compressed.length < 6 then some []
  else
    let numSymbols := compressed.getD 0 0 * 2 ^ 16 + compressed.getD 1 0 * 2 ^ 8 +
      compressed.getD 2 0
    let encodedLen := compressed.getD 3 0 * 2 ^ 16 + compressed.getD 4 0 * 2 ^ 8 +
      compressed.getD 5 0
    let encodedData := (compressed.drop 6).take encodedLen
    let unknownData := compressed.drop (6 + encodedLen)
    match decode tc.coder encodedData numSymbols with
    | none => none
    | some symbols => wordsOfSymbols tc.id_to_word unknownData symbols 0

/-- Python substring test `w in s` on byte strings: `w` occurs
contiguously in `s` (the empty string is a substring of everything). -/
def isPrefixB : List Nat → List Nat → Bool
  | [], _ => true
  | _ :: _, [] => false
  | a :: as, b :: bs => a == b && isPrefixB as bs

/-- See `isPrefixB`: Python `w in s` substring membership. -/
def isSubstrB (w : List Nat) : List Nat → Bool
  | [] => w.isEmpty
  | s :: rest => isPrefixB w (s :: rest) || isSubstrB w rest

/-- The closing-punctuation string `'.,!?;:"\')'` of the spacing policy. -/
def closers : List Nat := [46, 44, 33, 63, 59, 58, 34, 39, 41]

/-- The opening-punctuation string `'("\''` of the spacing policy. -/
def openers : List Nat := [40, 34, 39]

/-- The smart-spacing join of `decompress` after the first word: a space
(byte 32) is inserted before `word` unless `word` is a substring of the
closing punctuation or the previous word is a non-empty substring of the
opening punctuation. -/
def joinRest (prev : Token) : List Token → List Nat
  | [] => []
  | w :: ws =>
    (if !isSubstrB w closers && (prev.isEmpty || !isSubstrB prev openers)
      then 32 :: w else w) ++ joinRest w ws

/-- The full smart-spacing join: `result` starts empty, the first word is
appended without a space (loop index `i = 0`). -/
def joinWords : List Token → List Nat
  | [] => []
  | w :: ws => w ++ joinRest w ws

/-- `TextCompressor.decompress`, returning the final text (as UTF-8
bytes): the word list joined by the spacing policy. -/
def decompress (tc : TextCompressor) (compressed : List Nat) : Option (List Nat) :=
  (decompressWords tc compressed).map joinWords

/-- The counting loop of `train`: `Counter.update` keeps one entry per
distinct token, in first-occurrence order, with its occurrence count. -/
def bumpCount (w : Token) : List (Token × Nat) → List (Token × Nat)
  | [] => [(w, 1)]
  | (t, c) :: rest => if t == w then (t, c + 1) :: rest else (t, c) :: bumpCount w rest

/-- `Counter()` over all tokens of all training texts, in order. -/
def countTokens (ts : List Token) : List (Token × Nat) :=
  ts.foldl (fun acc w => bumpCount w acc) []

/-- `Counter.most_common()`: the entries sorted by descending count.
Python's sort is stable, and so is `insertionSort` with this
(non-strict) comparison: entries with equal counts keep their
first-occurrence order. -/
def mostCommon (counts : List (Token × Nat)) : List (Token × Nat) :=
  List.insertionSort (fun a b => b.2 ≤ a.2) counts

/-- A Python slice `l[:n]` with a possibly negative bound: for
`0 ≤ n` it keeps the first `n` elements, for `n < 0` it drops the last
`-n` elements. -/
def pySliceTo (n : Int) (l : List α) : List α :=
  if 0 ≤ n then l.take n.toNat else l.take (l.length - (-n).toNat)

/-- `TextCompressor.train` from the token multiset on (tokenization and
the `print`/`save_vocab` I/O are outside the core): filter the counted
tokens by `min_frequency`, truncate to `max_vocab_size - 1`, assign IDs
`1..N` in order, give the escape symbol `max(1, excluded_total // 10)`,
and build the coder.  The float entropy computation is informational
only and not modelled. -/
def trainTokens (tokens : List Token) (minFrequency : Nat) (maxVocabSize : Int) :
    TextCompressor :=
  let wordCounts := countTokens tokens
  let commonWords := pySliceTo (maxVocabSize - 1)
    ((mostCommon wordCounts).filter (fun p => minFrequency ≤ p.2))
  let unknownFreq0 :=
    ((wordCounts.filter (fun p => (commonWords.lookup p.1).isNone)).map Prod.snd).sum
  let unknownFreq : Nat := max 1 (unknownFreq0 / 10)
  let wordFreqs : List (Int × Int) :=
    (ESCAPE_SYMBOL, (unknownFreq : Int)) ::
      commonWords.enum.map (fun p => ((p.1 : Int) + 1, (p.2.2 : Int)))
  { word_to_id := commonWords.enum.map (fun p => (p.2.1, (p.1 : Int) + 1))
    id_to_word := commonWords.enum.map (fun p => ((p.1 : Int) + 1, p.2.1)) ++
      [(ESCAPE_SYMBOL, UNK)]
    word_frequencies := wordFreqs
    coder := mkCoder wordFreqs }

/-! ## Helper lemmas -/

/-- A Python slice `l[:n]` of the empty list is empty for every bound. -/
theorem pySliceTo_nil (n : Int) : pySliceTo n ([] : List α) = [] := by
  unfold pySliceTo
  split <;> simp

/-- The encode renormalization loop never exits from the inverted
interval `[0, -1]` (which arises when a zero-frequency symbol is
encoded): case E1 applies forever, re-establishing the same state.  This
certifies that the `none` produced by the fixed fuel on such states
models true non-termination of the source's `while` loop. -/
theorem encodeRenorm_zero_width_diverges (fuel : Nat) :
    ∀ p : Nat, encodeRenorm fuel 0 (-1) p = none := by
  induction fuel with
  | zero => intro p; rfl
  | succ n ih =>
    intro p
    have h1 : (-1 : Int) < HALF := by norm_num [HALF, PRECISION_BITS]
    have h2 : (2 : Int) * (-1) + 1 = -1 := by norm_num
    have h0 : (2 : Int) * 0 = 0 := by norm_num
    unfold encodeRenorm
    rw [if_pos h1, h0, h2, ih 0]

/-! ## Bit-stream arithmetic -/

/-- `takeD` always returns exactly `n` bits. -/
theorem length_takeD (n : Nat) (bs : List Bit) : (takeD n bs).length = n := by
  simp [takeD]
  omega

/-- `takeD` past the end of the stream just zero-pads. -/
theorem takeD_of_length_le {n : Nat} {bs : List Bit} (h : bs.length ≤ n) :
    takeD n bs = bs ++ List.replicate (n - bs.length) 0 := by
  simp [takeD, List.take_of_length_le h]

/-- Extending a `takeD` window by one position appends the next bit
(`0` past the end). -/
theorem takeD_succ (n : Nat) (bs : List Bit) :
    takeD (n + 1) bs = takeD n bs ++ [bs.getD n 0] := by
  rcases lt_or_le n bs.length with h | h
  · have h1 : (n + 1) - bs.length = 0 := by omega
    have h2 : n - bs.length = 0 := by omega
    have h3 : bs[n]?.toList = [bs.getD n 0] := by
      rw [List.getElem?_eq_getElem h]
      simp [List.getD_eq_getElem?_getD, List.getElem?_eq_getElem h]
    simp [takeD, h1, h2, List.take_succ, h3]
  · have h3 : bs.getD n 0 = 0 := by
      rw [List.getD_eq_getElem?_getD, List.getElem?_eq_none (by omega)]
      rfl
    rw [takeD_of_length_le h, takeD_of_length_le (by omega), h3]
    rw [List.append_assoc]
    congr 1
    have : n + 1 - bs.length = (n - bs.length) + 1 := by omega
    rw [this, List.replicate_succ']

/-- Splitting a `takeD` window across a concatenation whose prefix fits. -/
theorem takeD_append_left (n : Nat) (pre x : List Bit) (h : pre.length ≤ n) :
    takeD n (pre ++ x) = pre ++ takeD (n - pre.length) x := by
  unfold takeD
  have hc : n - (pre ++ x).length = n - pre.length - x.length := by
    simp [List.length_append]
    omega
  rw [List.take_append_eq_append_take, List.take_of_length_le h, hc, List.append_assoc]

/-- Zero bits appended to the stream do not change any `takeD` window. -/
theorem takeD_append_zeros (n k : Nat) (bs : List Bit) :
    takeD n (bs ++ List.replicate k 0) = takeD n bs := by
  rcases le_or_lt n bs.length with h | h
  · have h1 : n - bs.length = 0 := by omega
    have h2 : n - (bs ++ List.replicate k 0).length = 0 := by
      simp [List.length_append]
      omega
    simp [takeD, List.take_append_eq_append_take, h1, h2]
    omega
  · rw [takeD_of_length_le (le_of_lt h)]
    unfold takeD
    rw [List.take_append_eq_append_take, List.take_of_length_le (le_of_lt h),
      List.take_replicate, List.append_assoc, ← List.replicate_add]
    congr 2
    simp [List.length_append]
    omega

/-- Reading a position of a stream with zero bits appended. -/
theorem getD_append_zeros (n k : Nat) (bs : List Bit) :
    (bs ++ List.replicate k 0).getD n 0 = bs.getD n 0 := by
  rcases lt_or_le n bs.length with h | h
  · exact List.getD_append _ _ _ _ h
  · rw [List.getD_append_right _ _ _ _ h]
    simp [List.getD_eq_getElem?_getD, List.getElem?_replicate, List.getElem?_eq_none h]
    split <;> rfl

/-- `foldl`-with-accumulator form of `intOfBits`. -/
theorem intOfBits_acc (bs : List Bit) (c : Int) :
    bs.foldl (fun v (b : Bit) => 2 * v + (b : Int)) c = c * 2 ^ bs.length + intOfBits bs := by
  induction bs generalizing c with
  | nil => simp [intOfBits]
  | cons b rest ih =>
    show List.foldl (fun v (b : Bit) => 2 * v + (b : Int)) (2 * c + (b : Int)) rest =
      c * 2 ^ (b :: rest).length + intOfBits (b :: rest)
    rw [ih]
    have hr : intOfBits (b :: rest) = (2 * 0 + (b : Int)) * 2 ^ rest.length + intOfBits rest := by
      show List.foldl (fun v (b : Bit) => 2 * v + (b : Int)) (2 * 0 + (b : Int)) rest = _
      rw [ih]
    rw [hr, List.length_cons]
    ring

/-- `intOfBits` of a concatenation. -/
theorem intOfBits_append (a b : List Bit) :
    intOfBits (a ++ b) = intOfBits a * 2 ^ b.length + intOfBits b := by
  unfold intOfBits
  rw [List.foldl_append]
  exact intOfBits_acc b _

/-- `intOfBits` of a single leading bit. -/
theorem intOfBits_cons (b : Bit) (l : List Bit) :
    intOfBits (b :: l) = (b : Int) * 2 ^ l.length + intOfBits l := by
  have h : b :: l = [b] ++ l := rfl
  rw [h, intOfBits_append]
  norm_num [intOfBits]

/-- A run of zero bits encodes zero. -/
theorem intOfBits_replicate_zero (k : Nat) : intOfBits (List.replicate k 0) = 0 := by
  induction k with
  | zero => rfl
  | succ n ih => rw [List.replicate_succ, intOfBits_cons, ih]; simp

/-- A run of `k` one bits encodes `2 ^ k - 1`. -/
theorem intOfBits_replicate_one (k : Nat) : intOfBits (List.replicate k 1) = 2 ^ k - 1 := by
  induction k with
  | zero => rfl
  | succ n ih =>
    rw [List.replicate_succ, intOfBits_cons, ih, List.length_replicate]
    push_cast
    ring

/-- Shifting one more bit into a `takeD` window. -/
theorem intOfBits_takeD_succ (n : Nat) (bs : List Bit) :
    intOfBits (takeD (n + 1) bs) = 2 * intOfBits (takeD n bs) + (bs.getD n 0 : Int) := by
  rw [takeD_succ, intOfBits_append]
  norm_num [intOfBits]
  ring

/-! ## The decoder value register along the emitted stream -/

/-- A position read from a `0`/`1` stream is at most `1`. -/
theorem getD_le_one {bs : List Bit} (h : ∀ b ∈ bs, b ≤ 1) (n : Nat) : bs.getD n 0 ≤ 1 := by
  rcases lt_or_le n bs.length with hn | hn
  · rw [List.getD_eq_getElem?_getD, List.getElem?_eq_getElem hn]
    exact h _ (List.getElem_mem hn)
  · rw [List.getD_eq_getElem?_getD, List.getElem?_eq_none hn]
    exact Nat.zero_le 1

/-- The E3 (underflow) renormalization step at the `value` level: one
more pending bit, value transform `v ↦ 2 * (v - QUARTER) + next bit`. -/
theorem vOf_E3 (p : Nat) (bs : List Bit) :
    vOf (p + 1) bs = 2 * (vOf p bs - QUARTER) + (bs.getD (PRECISION_BITS + p) 0 : Int) := by
  unfold vOf
  have h : PRECISION_BITS + (p + 1) = (PRECISION_BITS + p) + 1 := rfl
  rw [h, intOfBits_takeD_succ]
  have hH : HALF = 2 * QUARTER := rfl
  rw [hH, pow_succ]
  ring

/-- The E1 (emit `0`, flush pending `1`s) renormalization step at the
`value` level: reading past the emitted `0 1^p` prefix, the doubled
value plus the next bit is the fresh 32-bit window into the rest. -/
theorem vOf_E1 (p : Nat) (x : List Bit) :
    2 * vOf p ((0 :: List.replicate p 1) ++ x) +
        (((0 :: List.replicate p 1) ++ x).getD (PRECISION_BITS + p) 0 : Int) = vOf 0 x := by
  unfold vOf
  have hlen : (0 :: List.replicate p 1).length = p + 1 := by simp
  have hle : (0 :: List.replicate p 1).length ≤ PRECISION_BITS + p := by
    rw [hlen]
    simp [PRECISION_BITS]
    omega
  have h31 : PRECISION_BITS + p - (0 :: List.replicate p 1).length = 31 := by
    rw [hlen]
    simp [PRECISION_BITS]
    omega
  have hR : intOfBits (takeD (PRECISION_BITS + 0) x) =
      2 * intOfBits (takeD 31 x) + (x.getD 31 0 : Int) := by
    have h32 : PRECISION_BITS + 0 = 31 + 1 := rfl
    rw [h32, intOfBits_takeD_succ]
  rw [takeD_append_left _ _ _ hle, List.getD_append_right _ _ _ _ hle, h31,
    intOfBits_append, intOfBits_cons, intOfBits_replicate_one, length_takeD,
    List.length_replicate, hR]
  have hH : HALF = (2 : Int) ^ 31 := rfl
  rw [hH]
  push_cast
  ring

/-- The E2 (emit `1`, flush pending `0`s) renormalization step at the
`value` level, with the `HALF` subtraction of the decoder. -/
theorem vOf_E2 (p : Nat) (x : List Bit) :
    2 * (vOf p ((1 :: List.replicate p 0) ++ x) - HALF) +
        (((1 :: List.replicate p 0) ++ x).getD (PRECISION_BITS + p) 0 : Int) = vOf 0 x := by
  unfold vOf
  have hlen : (1 :: List.replicate p 0).length = p + 1 := by simp
  have hle : (1 :: List.replicate p 0).length ≤ PRECISION_BITS + p := by
    rw [hlen]
    simp [PRECISION_BITS]
    omega
  have h31 : PRECISION_BITS + p - (1 :: List.replicate p 0).length = 31 := by
    rw [hlen]
    simp [PRECISION_BITS]
    omega
  have hR : intOfBits (takeD (PRECISION_BITS + 0) x) =
      2 * intOfBits (takeD 31 x) + (x.getD 31 0 : Int) := by
    have h32 : PRECISION_BITS + 0 = 31 + 1 := rfl
    rw [h32, intOfBits_takeD_succ]
  rw [takeD_append_left _ _ _ hle, List.getD_append_right _ _ _ _ hle, h31,
    intOfBits_append, intOfBits_cons, intOfBits_replicate_zero, length_takeD,
    List.length_replicate, hR]
  have hH : HALF = (2 : Int) ^ 31 := rfl
  rw [hH]
  push_cast
  ring

/-- After the final flush with polarity `0` (the `low < QUARTER` branch)
the decoder's value register reads exactly `QUARTER`, whatever the
pending count was. -/
theorem vOf_flush0 (p : Nat) : vOf p (0 :: List.replicate (p + 1) 1) = QUARTER := by
  unfold vOf
  have hlen : (0 :: List.replicate (p + 1) 1).length = p + 2 := by simp
  have hle : (0 :: List.replicate (p + 1) 1).length ≤ PRECISION_BITS + p := by
    rw [hlen]
    simp [PRECISION_BITS]
    omega
  have h30 : PRECISION_BITS + p - (0 :: List.replicate (p + 1) 1).length = 30 := by
    rw [hlen]
    simp [PRECISION_BITS]
    omega
  rw [takeD_of_length_le hle, h30, intOfBits_append, intOfBits_replicate_zero,
    intOfBits_cons, intOfBits_replicate_one, List.length_replicate,
    List.length_replicate]
  have hH : HALF = 2 * QUARTER := rfl
  have hQ : QUARTER = (2 : Int) ^ 30 := rfl
  rw [hH, hQ, pow_succ]
  push_cast
  ring

/-- After the final flush with polarity `1` (the `low ≥ QUARTER` branch)
the decoder's value register reads exactly `HALF`. -/
theorem vOf_flush1 (p : Nat) : vOf p (1 :: List.replicate (p + 1) 0) = HALF := by
  unfold vOf
  have hlen : (1 :: List.replicate (p + 1) 0).length = p + 2 := by simp
  have hle : (1 :: List.replicate (p + 1) 0).length ≤ PRECISION_BITS + p := by
    rw [hlen]
    simp [PRECISION_BITS]
    omega
  have h30 : PRECISION_BITS + p - (1 :: List.replicate (p + 1) 0).length = 30 := by
    rw [hlen]
    simp [PRECISION_BITS]
    omega
  rw [takeD_of_length_le hle, h30, intOfBits_append, intOfBits_replicate_zero,
    intOfBits_cons, intOfBits_replicate_zero, List.length_replicate,
    List.length_replicate]
  have hH : HALF = 2 * QUARTER := rfl
  have hQ : QUARTER = (2 : Int) ^ 30 := rfl
  rw [hH, hQ, pow_succ]
  push_cast
  ring

/-- Appended zero bits do not change the decoder value register. -/
theorem vOf_append_zeros (p k : Nat) (bs : List Bit) :
    vOf p (bs ++ List.replicate k 0) = vOf p bs := by
  unfold vOf
  rw [takeD_append_zeros]

/-! ## Renormalization simulation -/

/-- The head of a suffix with default `0` is a positional read. -/
theorem headD_drop (l : List Bit) (n : Nat) : (l.drop n).headD 0 = l.getD n 0 := by
  simp [List.headD_eq_head?, List.getD_eq_getElem?_getD, List.head?_drop]

/-- Dropping past a prefix. -/
theorem drop_append_of_le (pre x : List Bit) (n : Nat) (h : pre.length ≤ n) :
    (pre ++ x).drop n = x.drop (n - pre.length) := by
  rw [List.drop_append_eq_append_drop, List.drop_of_length_le h, List.nil_append]

/-- Numeric value of `HALF`. -/
theorem HALF_lit : HALF = 2147483648 := rfl

/-- Numeric value of `QUARTER`. -/
theorem QUARTER_lit : QUARTER = 1073741824 := rfl

/-- Numeric value of `THREE_QUARTERS`. -/
theorem THREE_QUARTERS_lit : THREE_QUARTERS = 3221225472 := rfl

/-- Numeric value of `MAX_RANGE`. -/
theorem MAX_RANGE_lit : MAX_RANGE = 4294967295 := rfl

/-- Central simulation lemma for one renormalization loop.  If the
encoder's loop, started on a non-empty sub-interval of
`[0, MAX_RANGE]` with `p` pending bits, exits with state
`(l, h, p1)` after emitting `emitted`, then: the exit state satisfies
the boundary invariant; the emitted bits are `0`/`1`; and for every
`0`/`1` continuation `x` of the stream, the decoder's loop from the same
interval — with its `value` register read off the stream by `vOf` and
its feed aligned `PRECISION_BITS + p` positions in — takes exactly the
same case path and exits with the same interval, the re-aligned value
`vOf p1 x`, and the re-aligned feed.  Moreover `value` containment
transfers backward through the loop: if the exit value lies in `[l, h]`
then the entry value lies in `[low, high]`. -/
theorem encodeRenorm_sim (fuel : Nat) :
    ∀ low high p emitted l h p1,
      encodeRenorm fuel low high p = some (emitted, l, h, p1) →
      0 ≤ low → low ≤ high → high ≤ MAX_RANGE →
      BoundaryInv l h ∧ (∀ b ∈ emitted, b ≤ 1) ∧
      ∀ x : List Bit, (∀ b ∈ x, b ≤ 1) →
        decodeRenorm fuel low high (vOf p (emitted ++ x))
            ((emitted ++ x).drop (PRECISION_BITS + p)) =
          some (l, h, vOf p1 x, x.drop (PRECISION_BITS + p1)) ∧
        (l ≤ vOf p1 x → vOf p1 x ≤ h →
          low ≤ vOf p (emitted ++ x) ∧ vOf p (emitted ++ x) ≤ high) := by
  induction fuel with
  | zero =>
    intro low high p emitted l h p1 heq
    exact absurd heq (by simp [encodeRenorm])
  | succ n ih =>
    intro low high p emitted l h p1 heq h0 hlh hhm
    have hH := HALF_lit
    have hQ := QUARTER_lit
    have hTQ := THREE_QUARTERS_lit
    have hM := MAX_RANGE_lit
    rw [encodeRenorm] at heq
    by_cases hc1 : high < HALF
    · rw [if_pos hc1] at heq
      cases hrec : encodeRenorm n (2 * low) (2 * high + 1) 0 with
      | none => rw [hrec] at heq; exact absurd heq (by simp)
      | some quad =>
        obtain ⟨bits1, l1, h1, p11⟩ := quad
        rw [hrec] at heq
        simp only [Option.some.injEq, Prod.mk.injEq] at heq
        obtain ⟨hemit, hl1, hh1, hp1⟩ := heq
        subst hl1; subst hh1; subst hp1
        obtain ⟨hinv, hbits, hsim⟩ := ih (2 * low) (2 * high + 1) 0 bits1 _ _ _ hrec
          (by omega) (by omega) (by omega)
        refine ⟨hinv, ?_, ?_⟩
        · intro b hb
          rw [← hemit, List.cons_append] at hb
          rcases List.mem_cons.mp hb with rfl | hb
          · decide
          · rcases List.mem_append.mp hb with hb | hb
            · exact le_of_eq (List.mem_replicate.mp hb).2
            · exact hbits b hb
        · intro x hx
          have hx1 : ∀ b ∈ bits1 ++ x, b ≤ 1 := by
            intro b hb
            rcases List.mem_append.mp hb with hb | hb
            · exact hbits b hb
            · exact hx b hb
          obtain ⟨hdec, hback⟩ := hsim x hx
          have hsplit : emitted ++ x = (0 :: List.replicate p 1) ++ (bits1 ++ x) := by
            rw [← hemit]
            simp [List.cons_append, List.append_assoc]
          have hlenpre : (0 :: List.replicate p 1).length = p + 1 := by simp
          have hlepre : (0 :: List.replicate p 1).length ≤ PRECISION_BITS + p := by
            rw [hlenpre]
            simp only [PRECISION_BITS]
            omega
          have hidx : PRECISION_BITS + p - (0 :: List.replicate p 1).length = 31 := by
            rw [hlenpre]
            simp only [PRECISION_BITS]
            omega
          have hfeed : (emitted ++ x).drop (PRECISION_BITS + p) = (bits1 ++ x).drop 31 := by
            rw [hsplit, drop_append_of_le _ _ _ hlepre, hidx]
          have hgd : (emitted ++ x).getD (PRECISION_BITS + p) 0 = (bits1 ++ x).getD 31 0 := by
            rw [hsplit, List.getD_append_right _ _ _ _ hlepre, hidx]
          have hval : 2 * vOf p (emitted ++ x) + ((bits1 ++ x).getD 31 0 : Int) =
              vOf 0 (bits1 ++ x) := by
            have hv1 := vOf_E1 p (bits1 ++ x)
            rw [← hsplit, hgd] at hv1
            exact hv1
          constructor
          · rw [decodeRenorm, if_pos hc1, hfeed, headD_drop, List.tail_drop]
            have h32 : (31 : Nat) + 1 = PRECISION_BITS + 0 := rfl
            rw [hval, h32]
            exact hdec
          · intro hvl hvh
            obtain ⟨hb1, hb2⟩ := hback hvl hvh
            have hble : ((bits1 ++ x).getD 31 0 : Int) ≤ 1 := by
              exact_mod_cast getD_le_one hx1 31
            have hbge : (0 : Int) ≤ ((bits1 ++ x).getD 31 0 : Int) := by positivity
            omega
    · rw [if_neg hc1] at heq
      by_cases hc2 : HALF ≤ low
      · rw [if_pos hc2] at heq
        cases hrec : encodeRenorm n (2 * (low - HALF)) (2 * (high - HALF) + 1) 0 with
        | none => rw [hrec] at heq; exact absurd heq (by simp)
        | some quad =>
          obtain ⟨bits1, l1, h1, p11⟩ := quad
          rw [hrec] at heq
          simp only [Option.some.injEq, Prod.mk.injEq] at heq
          obtain ⟨hemit, hl1, hh1, hp1⟩ := heq
          subst hl1; subst hh1; subst hp1
          obtain ⟨hinv, hbits, hsim⟩ := ih (2 * (low - HALF)) (2 * (high - HALF) + 1) 0
            bits1 _ _ _ hrec (by omega) (by omega) (by omega)
          refine ⟨hinv, ?_, ?_⟩
          · intro b hb
            rw [← hemit, List.cons_append] at hb
            rcases List.mem_cons.mp hb with rfl | hb
            · decide
            · rcases List.mem_append.mp hb with hb | hb
              · rcases List.mem_replicate.mp hb with ⟨-, rfl⟩
                decide
              · exact hbits b hb
          · intro x hx
            have hx1 : ∀ b ∈ bits1 ++ x, b ≤ 1 := by
              intro b hb
              rcases List.mem_append.mp hb with hb | hb
              · exact hbits b hb
              · exact hx b hb
            obtain ⟨hdec, hback⟩ := hsim x hx
            have hsplit : emitted ++ x = (1 :: List.replicate p 0) ++ (bits1 ++ x) := by
              rw [← hemit]
              simp [List.cons_append, List.append_assoc]
            have hlenpre : (1 :: List.replicate p 0).length = p + 1 := by simp
            have hlepre : (1 :: List.replicate p 0).length ≤ PRECISION_BITS + p := by
              rw [hlenpre]
              simp only [PRECISION_BITS]
              omega
            have hidx : PRECISION_BITS + p - (1 :: List.replicate p 0).length = 31 := by
              rw [hlenpre]
              simp only [PRECISION_BITS]
              omega
            have hfeed : (emitted ++ x).drop (PRECISION_BITS + p) = (bits1 ++ x).drop 31 := by
              rw [hsplit, drop_append_of_le _ _ _ hlepre, hidx]
            have hgd : (emitted ++ x).getD (PRECISION_BITS + p) 0 = (bits1 ++ x).getD 31 0 := by
              rw [hsplit, List.getD_append_right _ _ _ _ hlepre, hidx]
            have hval : 2 * (vOf p (emitted ++ x) - HALF) + ((bits1 ++ x).getD 31 0 : Int) =
                vOf 0 (bits1 ++ x) := by
              have hv1 := vOf_E2 p (bits1 ++ x)
              rw [← hsplit, hgd] at hv1
              exact hv1
            constructor
            · rw [decodeRenorm, if_neg hc1, if_pos hc2, hfeed, headD_drop, List.tail_drop]
              have h32 : (31 : Nat) + 1 = PRECISION_BITS + 0 := rfl
              rw [hval, h32]
              exact hdec
            · intro hvl hvh
              obtain ⟨hb1, hb2⟩ := hback hvl hvh
              have hble : ((bits1 ++ x).getD 31 0 : Int) ≤ 1 := by
                exact_mod_cast getD_le_one hx1 31
              have hbge : (0 : Int) ≤ ((bits1 ++ x).getD 31 0 : Int) := by positivity
              omega
      · rw [if_neg hc2] at heq
        by_cases hc3 : QUARTER ≤ low ∧ high < THREE_QUARTERS
        · rw [if_pos hc3] at heq
          obtain ⟨hinv, hbits, hsim⟩ := ih (2 * (low - QUARTER)) (2 * (high - QUARTER) + 1)
            (p + 1) emitted _ _ _ heq (by omega) (by omega) (by omega)
          refine ⟨hinv, hbits, ?_⟩
          intro x hx
          obtain ⟨hdec, hback⟩ := hsim x hx
          have hxall : ∀ b ∈ emitted ++ x, b ≤ 1 := by
            intro b hb
            rcases List.mem_append.mp hb with hb | hb
            · exact hbits b hb
            · exact hx b hb
          have hval : 2 * (vOf p (emitted ++ x) - QUARTER) +
              ((emitted ++ x).getD (PRECISION_BITS + p) 0 : Int) =
              vOf (p + 1) (emitted ++ x) := (vOf_E3 p (emitted ++ x)).symm
          constructor
          · rw [decodeRenorm, if_neg hc1, if_neg hc2, if_pos hc3, headD_drop, List.tail_drop]
            have h33 : PRECISION_BITS + p + 1 = PRECISION_BITS + (p + 1) := rfl
            rw [hval, h33]
            exact hdec
          · intro hvl hvh
            obtain ⟨hb1, hb2⟩ := hback hvl hvh
            have hble : ((emitted ++ x).getD (PRECISION_BITS + p) 0 : Int) ≤ 1 := by
              exact_mod_cast getD_le_one hxall (PRECISION_BITS + p)
            have hbge : (0 : Int) ≤ ((emitted ++ x).getD (PRECISION_BITS + p) 0 : Int) := by
              positivity
            omega
        · rw [if_neg hc3] at heq
          simp only [Option.some.injEq, Prod.mk.injEq] at heq
          obtain ⟨hemit, hl1, hh1, hp1⟩ := heq
          subst hl1; subst hh1; subst hp1
          rw [← hemit]
          push_neg at hc3
          refine ⟨⟨h0, by omega, by omega, hhm, by omega⟩, by simp, ?_⟩
          intro x hx
          rw [List.nil_append]
          refine ⟨?_, fun hvl hvh => ⟨hvl, hvh⟩⟩
          rw [decodeRenorm, if_neg hc1, if_neg hc2, if_neg ?_]
          intro hcc
          omega

/-- Fuel sufficiency for the encoder's renormalization loop: started on
a non-empty sub-interval of `[0, MAX_RANGE]`, the loop exits once the
doubling width passes `HALF`, so any fuel with
`HALF < 2 ^ fuel * width` suffices (each iteration needs width at most
`HALF` and doubles it). -/
theorem encodeRenorm_total (fuel : Nat) :
    ∀ low high p, 0 ≤ low → low ≤ high → high ≤ MAX_RANGE →
      HALF < 2 ^ fuel * (high - low + 1) →
      (encodeRenorm (fuel + 1) low high p).isSome := by
  induction fuel with
  | zero =>
    intro low high p h0 hlh hhm hw
    have hH := HALF_lit
    have hQ := QUARTER_lit
    have hTQ := THREE_QUARTERS_lit
    have hM := MAX_RANGE_lit
    rw [pow_zero, one_mul] at hw
    rw [encodeRenorm, if_neg (by omega), if_neg (by omega), if_neg ?_]
    · rfl
    · intro hcc
      omega
  | succ n ih =>
    intro low high p h0 hlh hhm hw
    have hH := HALF_lit
    have hQ := QUARTER_lit
    have hTQ := THREE_QUARTERS_lit
    have hM := MAX_RANGE_lit
    rw [encodeRenorm]
    by_cases hc1 : high < HALF
    · rw [if_pos hc1]
      have hw2 : HALF < 2 ^ n * (2 * high + 1 - 2 * low + 1) := by
        have he : (2 : Int) ^ n * (2 * high + 1 - 2 * low + 1) =
            2 ^ (n + 1) * (high - low + 1) := by
          rw [pow_succ]
          ring
        rw [he]
        exact hw
      have := ih (2 * low) (2 * high + 1) 0 (by omega) (by omega) (by omega) hw2
      obtain ⟨quad, hq⟩ := Option.isSome_iff_exists.mp this
      rw [hq]
      obtain ⟨b1, l1, h1, p1⟩ := quad
      rfl
    · rw [if_neg hc1]
      by_cases hc2 : HALF ≤ low
      · rw [if_pos hc2]
        have hw2 : HALF < 2 ^ n * (2 * (high - HALF) + 1 - 2 * (low - HALF) + 1) := by
          have he : (2 : Int) ^ n * (2 * (high - HALF) + 1 - 2 * (low - HALF) + 1) =
              2 ^ (n + 1) * (high - low + 1) := by
            rw [pow_succ]
            ring
          rw [he]
          exact hw
        have := ih (2 * (low - HALF)) (2 * (high - HALF) + 1) 0
          (by omega) (by omega) (by omega) hw2
        obtain ⟨quad, hq⟩ := Option.isSome_iff_exists.mp this
        rw [hq]
        obtain ⟨b1, l1, h1, p1⟩ := quad
        rfl
      · rw [if_neg hc2]
        by_cases hc3 : QUARTER ≤ low ∧ high < THREE_QUARTERS
        · rw [if_pos hc3]
          have hw2 : HALF < 2 ^ n * (2 * (high - QUARTER) + 1 - 2 * (low - QUARTER) + 1) := by
            have he : (2 : Int) ^ n * (2 * (high - QUARTER) + 1 - 2 * (low - QUARTER) + 1) =
                2 ^ (n + 1) * (high - low + 1) := by
              rw [pow_succ]
              ring
            rw [he]
            exact hw
          exact ih (2 * (low - QUARTER)) (2 * (high - QUARTER) + 1) (p + 1)
            (by omega) (by omega) (by omega) hw2
        · rw [if_neg hc3]
          rfl

/-- A successful association-list lookup produces an element of the
list. -/
theorem lookup_mem {α β : Type} [BEq α] [LawfulBEq α] {k : α} {v : β} :
    ∀ {l : List (α × β)}, l.lookup k = some v → (k, v) ∈ l := by
  intro l
  induction l with
  | nil => intro hl; cases hl
  | cons q rest ih =>
    obtain ⟨a, b⟩ := q
    intro hl
    cases hbeq : (k == a) with
    | true =>
      have ha : k = a := eq_of_beq hbeq
      rw [List.lookup, hbeq] at hl
      cases hl
      subst ha
      exact List.mem_cons_self _ _
    | false =>
      rw [List.lookup, hbeq] at hl
      exact List.mem_cons_of_mem _ (ih hl)

/-- Narrowing arithmetic at a symbol boundary: with the boundary
invariant, a positive total at most `QUARTER`, and a non-empty symbol
interval `[sl, sh)` inside `[0, T]`, the narrowed machine interval is a
non-empty sub-interval of `[low, high]`, and every value inside it
scales back into `[sl, sh)` under the decoder's `scaled_value`
formula. -/
theorem narrow_spec (low high T sl sh : Int)
    (hinv : BoundaryInv low high)
    (hT : 0 < T) (hTQ : T ≤ QUARTER)
    (hsl : 0 ≤ sl) (hslsh : sl < sh) (hshT : sh ≤ T) :
    0 ≤ low + ((high - low + 1) * sl).fdiv T ∧
    low + ((high - low + 1) * sl).fdiv T ≤ low + ((high - low + 1) * sh).fdiv T - 1 ∧
    low + ((high - low + 1) * sh).fdiv T - 1 ≤ high ∧
    low ≤ low + ((high - low + 1) * sl).fdiv T ∧
    ∀ v, low + ((high - low + 1) * sl).fdiv T ≤ v →
      v ≤ low + ((high - low + 1) * sh).fdiv T - 1 →
      sl ≤ ((v - low + 1) * T - 1).fdiv (high - low + 1) ∧
        ((v - low + 1) * T - 1).fdiv (high - low + 1) < sh := by
  obtain ⟨h0, hlH, hHh, hhM, hq3⟩ := hinv
  have hH := HALF_lit
  have hQ := QUARTER_lit
  have hTQ3 := THREE_QUARTERS_lit
  have hM := MAX_RANGE_lit
  set r := high - low + 1 with hr
  have hrQ : QUARTER + 2 ≤ r := by omega
  have hrpos : (0 : Int) < r := by omega
  have hTr : T ≤ r := by omega
  rw [Int.fdiv_eq_ediv _ (le_of_lt hT), Int.fdiv_eq_ediv _ (le_of_lt hT)]
  have hnl0 : 0 ≤ r * sl / T := Int.ediv_nonneg (by positivity) (le_of_lt hT)
  have hstep : r * sl / T + 1 ≤ r * sh / T := by
    have h1 : r * sl + 1 * T ≤ r * sh := by nlinarith
    have h2 : (r * sl + 1 * T) / T = r * sl / T + 1 :=
      Int.add_mul_ediv_right _ _ (ne_of_gt hT)
    calc r * sl / T + 1 = (r * sl + 1 * T) / T := h2.symm
      _ ≤ r * sh / T := Int.ediv_le_ediv hT h1
  have hub : r * sh / T ≤ r := by
    calc r * sh / T ≤ r * T / T := Int.ediv_le_ediv hT (by nlinarith)
      _ = r := Int.mul_ediv_cancel _ (ne_of_gt hT)
  refine ⟨by omega, by omega, by omega, by omega, ?_⟩
  intro v hvl hvh
  rw [Int.fdiv_eq_ediv _ (by omega)]
  have hmod0 : 0 ≤ r * sl % T := Int.emod_nonneg _ (ne_of_gt hT)
  have hmodT : r * sl % T < T := Int.emod_lt_of_pos _ hT
  have hdm : T * (r * sl / T) + r * sl % T = r * sl := Int.ediv_add_emod _ _
  constructor
  · rw [Int.le_ediv_iff_mul_le hrpos]
    have hstep1 : r * sl / T + 1 ≤ v - low + 1 := by omega
    have hmul : (r * sl / T + 1) * T ≤ (v - low + 1) * T :=
      mul_le_mul_of_nonneg_right hstep1 (le_of_lt hT)
    nlinarith
  · rw [Int.ediv_lt_iff_lt_mul hrpos]
    have hstep2 : v - low + 1 ≤ r * sh / T := by omega
    have hmul : (v - low + 1) * T ≤ (r * sh / T) * T :=
      mul_le_mul_of_nonneg_right hstep2 (le_of_lt hT)
    have hml : (r * sh / T) * T ≤ r * sh := Int.ediv_mul_le _ (ne_of_gt hT)
    nlinarith

/-- Bounds of the cumulative chain: with positive frequencies every laid
out interval is non-empty and lies between the running total `c` and
`c` plus the sum of all frequencies in the list. -/
theorem cumChain_bounds (ps : List (Int × Int)) (hpos : ∀ p ∈ ps, 0 < p.2) :
    ∀ c, ∀ e ∈ cumChain c ps,
      c ≤ e.2.1 ∧ e.2.1 < e.2.2 ∧ e.2.2 ≤ c + (ps.map Prod.snd).sum := by
  induction ps with
  | nil => intro c e he; cases he
  | cons p rest ih =>
    obtain ⟨s, f⟩ := p
    intro c e he
    have hf : 0 < f := hpos (s, f) (List.mem_cons_self _ _)
    have hs : 0 ≤ (rest.map Prod.snd).sum := by
      apply List.sum_nonneg
      intro x hx
      obtain ⟨q, hq, rfl⟩ := List.mem_map.mp hx
      exact le_of_lt (hpos q (List.mem_cons_of_mem _ hq))
    have hsum : ((((s, f) :: rest).map Prod.snd).sum : Int) =
        f + (rest.map Prod.snd).sum := by simp
    rcases List.mem_cons.mp he with rfl | he
    · refine ⟨le_refl _, by simpa using hf, ?_⟩
      rw [hsum]; simp; linarith
    · obtain ⟨h1, h2, h3⟩ := ih (fun q hq => hpos q (List.mem_cons_of_mem _ hq)) (c + f) e he
      refine ⟨by linarith, h2, ?_⟩
      rw [hsum]; linarith

/-- Coverage of the cumulative chain: every value between the running
total and the final total is contained in some interval, and the linear
search of `decode` finds (the first) such entry. -/
theorem findCum_covers (ps : List (Int × Int)) (hpos : ∀ p ∈ ps, 0 < p.2) :
    ∀ c v, c ≤ v → v < c + (ps.map Prod.snd).sum →
      ∃ e, findCum v (cumChain c ps) = some e ∧ e ∈ cumChain c ps ∧
        e.2.1 ≤ v ∧ v < e.2.2 := by
  induction ps with
  | nil => intro c v h1 h2; simp at h2; linarith
  | cons p rest ih =>
    obtain ⟨s, f⟩ := p
    intro c v h1 h2
    have hsum : ((((s, f) :: rest).map Prod.snd).sum : Int) =
        f + (rest.map Prod.snd).sum := by simp
    by_cases hv : v < c + f
    · refine ⟨(s, c, c + f), ?_, List.mem_cons_self _ _, h1, hv⟩
      unfold cumChain findCum
      rw [if_pos ⟨h1, hv⟩]
    · push_neg at hv
      obtain ⟨e, hfind, hmem, hlo, hhi⟩ :=
        ih (fun q hq => hpos q (List.mem_cons_of_mem _ hq)) (c + f) v hv
          (by rw [hsum] at h2; linarith)
      refine ⟨e, ?_, List.mem_cons_of_mem _ hmem, hlo, hhi⟩
      unfold cumChain findCum
      rw [if_neg]
      · exact hfind
      · rintro ⟨-, hlt⟩; linarith

/-- Disjointness of the cumulative chain: a value contained in two laid
out intervals identifies a single entry. -/
theorem cumChain_unique (ps : List (Int × Int)) (hpos : ∀ p ∈ ps, 0 < p.2) :
    ∀ c v e1 e2, e1 ∈ cumChain c ps → e2 ∈ cumChain c ps →
      e1.2.1 ≤ v → v < e1.2.2 → e2.2.1 ≤ v → v < e2.2.2 → e1 = e2 := by
  induction ps with
  | nil => intro c v e1 e2 h1 h2; cases h1
  | cons p rest ih =>
    obtain ⟨s, f⟩ := p
    intro c v e1 e2 h1 h2 hl1 hh1 hl2 hh2
    have htail := fun q hq => hpos q (List.mem_cons_of_mem (s, f) hq)
    rcases List.mem_cons.mp h1 with rfl | h1 <;> rcases List.mem_cons.mp h2 with rfl | h2
    · rfl
    · obtain ⟨hb, -, -⟩ := cumChain_bounds rest htail (c + f) e2 h2
      simp only at hh1 hl2
      linarith
    · obtain ⟨hb, -, -⟩ := cumChain_bounds rest htail (c + f) e1 h1
      simp only at hh2 hl1
      linarith
    · exact ih htail (c + f) v e1 e2 h1 h2 hl1 hh1 hl2 hh2

/-- The emitted stream read as a value: along any successful encode
(including its final flush), the decoder value `vOf p bs` read off the
remaining emissions lies inside the current working interval.  At the
flush it is exactly `QUARTER` or `HALF`; through each narrowing and
renormalization the containment transfers backward by
`encodeRenorm_sim`. -/
theorem encodeCore_vOf_bounds (c : ArithmeticCoder) (ps : List (Int × Int))
    (hcum : c.cum_freq = cumChain 0 ps) (hpos : ∀ q ∈ ps, 0 < q.2)
    (htot : c.total_freq = (ps.map Prod.snd).sum) (hTQ : c.total_freq ≤ QUARTER) :
    ∀ ss low high p bs, BoundaryInv low high →
      encodeCore c low high p ss = some bs →
      (∀ b ∈ bs, b ≤ 1) ∧ low ≤ vOf p bs ∧ vOf p bs ≤ high := by
  intro ss
  induction ss with
  | nil =>
    intro low high p bs hinv heq
    obtain ⟨h0, hlH, hHh, hhM, hq3⟩ := hinv
    have hH := HALF_lit
    have hQ := QUARTER_lit
    rw [encodeCore] at heq
    by_cases hlq : low < QUARTER
    · rw [if_pos hlq] at heq
      cases heq
      refine ⟨?_, ?_, ?_⟩
      · intro b hb
        rcases List.mem_cons.mp hb with rfl | hb
        · decide
        · exact le_of_eq (List.mem_replicate.mp hb).2
      · rw [vOf_flush0]
        omega
      · rw [vOf_flush0]
        omega
    · rw [if_neg hlq] at heq
      cases heq
      refine ⟨?_, ?_, ?_⟩
      · intro b hb
        rcases List.mem_cons.mp hb with rfl | hb
        · decide
        · rcases List.mem_replicate.mp hb with ⟨-, rfl⟩
          decide
      · rw [vOf_flush1]
        omega
      · rw [vOf_flush1]
        omega
  | cons s rest ih =>
    intro low high p bs hinv heq
    rw [encodeCore] at heq
    cases hlk : c.cum_freq.lookup s with
    | none => rw [hlk] at heq; cases heq
    | some pr =>
      obtain ⟨sl, sh⟩ := pr
      rw [hlk] at heq
      simp only [] at heq
      cases hren : encodeRenorm RENORM_FUEL
          (low + ((high - low + 1) * sl).fdiv c.total_freq)
          (low + ((high - low + 1) * sh).fdiv c.total_freq - 1) p with
      | none => rw [hren] at heq; cases heq
      | some quad =>
        obtain ⟨emitted, l, h, p1⟩ := quad
        rw [hren] at heq
        simp only [] at heq
        cases hrest : encodeCore c l h p1 rest with
        | none => rw [hrest] at heq; cases heq
        | some bs1 =>
          rw [hrest] at heq
          cases heq
          have hmem : (s, sl, sh) ∈ cumChain 0 ps := by
            rw [← hcum]
            exact lookup_mem hlk
          obtain ⟨hsl0, hslsh, hshS⟩ := cumChain_bounds ps hpos 0 (s, sl, sh) hmem
          simp only [] at hsl0 hslsh hshS
          rw [zero_add] at hshS
          rw [← htot] at hshS
          have hTpos : 0 < c.total_freq := by omega
          obtain ⟨hnl0, hnlnh, hnhh, hlnl, hscaled⟩ :=
            narrow_spec low high c.total_freq sl sh hinv hTpos hTQ hsl0 hslsh hshS
          have hhM : high ≤ MAX_RANGE := hinv.2.2.2.1
          obtain ⟨hinv1, hembits, hsim⟩ := encodeRenorm_sim RENORM_FUEL _ _ p emitted l h p1
            hren hnl0 hnlnh (by omega)
          obtain ⟨hbs1, hvl, hvh⟩ := ih l h p1 bs1 hinv1 hrest
          obtain ⟨-, hback⟩ := hsim bs1 hbs1
          obtain ⟨hb1, hb2⟩ := hback hvl hvh
          refine ⟨?_, by omega, by omega⟩
          intro b hb
          rcases List.mem_append.mp hb with hb | hb
          · exact hembits b hb
          · exact hbs1 b hb

/-- Main decode simulation: a successful `encodeCore` run from a
boundary state is inverted exactly by `decodeCore` run for the same
number of symbols from the same state, with the value register and feed
read off the emitted stream. -/
theorem encodeCore_decodeCore (c : ArithmeticCoder) (ps : List (Int × Int))
    (hcum : c.cum_freq = cumChain 0 ps) (hpos : ∀ q ∈ ps, 0 < q.2)
    (htot : c.total_freq = (ps.map Prod.snd).sum) (hTQ : c.total_freq ≤ QUARTER) :
    ∀ ss low high p bs, BoundaryInv low high →
      encodeCore c low high p ss = some bs →
      decodeCore c ss.length low high (vOf p bs) (bs.drop (PRECISION_BITS + p)) =
        some ss := by
  intro ss
  induction ss with
  | nil =>
    intro low high p bs hinv heq
    rfl
  | cons s rest ih =>
    intro low high p bs hinv heq
    rw [encodeCore] at heq
    cases hlk : c.cum_freq.lookup s with
    | none => rw [hlk] at heq; cases heq
    | some pr =>
      obtain ⟨sl, sh⟩ := pr
      rw [hlk] at heq
      simp only [] at heq
      cases hren : encodeRenorm RENORM_FUEL
          (low + ((high - low + 1) * sl).fdiv c.total_freq)
          (low + ((high - low + 1) * sh).fdiv c.total_freq - 1) p with
      | none => rw [hren] at heq; cases heq
      | some quad =>
        obtain ⟨emitted, l, h, p1⟩ := quad
        rw [hren] at heq
        simp only [] at heq
        cases hrest : encodeCore c l h p1 rest with
        | none => rw [hrest] at heq; cases heq
        | some bs1 =>
          rw [hrest] at heq
          cases heq
          have hmem : (s, sl, sh) ∈ cumChain 0 ps := by
            rw [← hcum]
            exact lookup_mem hlk
          obtain ⟨hsl0, hslsh, hshS⟩ := cumChain_bounds ps hpos 0 (s, sl, sh) hmem
          simp only [] at hsl0 hslsh hshS
          rw [zero_add] at hshS
          rw [← htot] at hshS
          have hTpos : 0 < c.total_freq := by omega
          obtain ⟨hnl0, hnlnh, hnhh, hlnl, hscaled⟩ :=
            narrow_spec low high c.total_freq sl sh hinv hTpos hTQ hsl0 hslsh hshS
          have hhM : high ≤ MAX_RANGE := hinv.2.2.2.1
          obtain ⟨hinv1, hembits, hsim⟩ := encodeRenorm_sim RENORM_FUEL _ _ p emitted l h p1
            hren hnl0 hnlnh (by omega)
          obtain ⟨hbs1, hvl, hvh⟩ :=
            encodeCore_vOf_bounds c ps hcum hpos htot hTQ rest l h p1 bs1 hinv1 hrest
          obtain ⟨hdec, hback⟩ := hsim bs1 hbs1
          obtain ⟨hb1, hb2⟩ := hback hvl hvh
          obtain ⟨hsc1, hsc2⟩ := hscaled (vOf p (emitted ++ bs1)) hb1 hb2
          have hfind : findCum
              (((vOf p (emitted ++ bs1) - low + 1) * c.total_freq - 1).fdiv
                (high - low + 1)) c.cum_freq = some (s, sl, sh) := by
            obtain ⟨e, hfind0, hmem0, hlo0, hhi0⟩ := findCum_covers ps hpos 0
              (((vOf p (emitted ++ bs1) - low + 1) * c.total_freq - 1).fdiv
                (high - low + 1))
              (by omega) (by omega)
            have he : e = (s, sl, sh) := cumChain_unique ps hpos 0
              (((vOf p (emitted ++ bs1) - low + 1) * c.total_freq - 1).fdiv
                (high - low + 1)) e (s, sl, sh)
              hmem0 hmem hlo0 hhi0 hsc1 hsc2
            rw [hcum, hfind0, he]
          rw [List.length_cons, decodeCore]
          simp only [hfind]
          rw [hdec]
          simp only []
          rw [ih l h p1 bs1 hinv1 hrest]

/-! ## Totality and byte packing -/

/-- What a successful `findCum` returns: a member entry whose interval
contains the value. -/
theorem findCum_some {scaled : Int} :
    ∀ {l : List (Int × Int × Int)} {e}, findCum scaled l = some e →
      e ∈ l ∧ e.2.1 ≤ scaled ∧ scaled < e.2.2 := by
  intro l
  induction l with
  | nil => intro e he; cases he
  | cons q rest ih =>
    obtain ⟨s, sl, sh⟩ := q
    intro e he
    rw [findCum] at he
    by_cases hc : sl ≤ scaled ∧ scaled < sh
    · rw [if_pos hc] at he
      cases he
      exact ⟨List.mem_cons_self _ _, hc.1, hc.2⟩
    · rw [if_neg hc] at he
      obtain ⟨hm, hl, hh⟩ := ih he
      exact ⟨List.mem_cons_of_mem _ hm, hl, hh⟩

/-- The cumulative layout preserves the symbol keys in order. -/
theorem cumChain_keys : ∀ (c : Int) (ps : List (Int × Int)),
    (cumChain c ps).map Prod.fst = ps.map Prod.fst := by
  intro c ps
  induction ps generalizing c with
  | nil => rfl
  | cons q rest ih =>
    obtain ⟨s, f⟩ := q
    rw [cumChain, List.map_cons, List.map_cons, ih]

/-- A key present among the keys of an association list makes `lookup`
succeed. -/
theorem lookup_isSome_of_mem_keys {α β : Type} [BEq α] [LawfulBEq α] {k : α}
    {l : List (α × β)} (h : k ∈ l.map Prod.fst) : (l.lookup k).isSome := by
  induction l with
  | nil => cases h
  | cons q rest ih =>
    obtain ⟨a, b⟩ := q
    rcases List.mem_cons.mp h with he | hm
    · have : (k == a) = true := beq_iff_eq.mpr he
      rw [List.lookup, this]
      rfl
    · cases hbeq : (k == a) with
      | true => rw [List.lookup, hbeq]; rfl
      | false => rw [List.lookup, hbeq]; exact ih hm

/-- With no pending bits the decoder value is the plain 32-bit window. -/
theorem vOf_zero (bs : List Bit) :
    vOf 0 bs = intOfBits (takeD PRECISION_BITS bs) := by
  unfold vOf
  norm_num

/-- The padding step appends zero bits. -/
theorem padTo8_eq (bits : List Bit) :
    padTo8 bits = bits ++ List.replicate ((8 - bits.length % 8) % 8) 0 := rfl

/-- Padding reaches a byte boundary. -/
theorem padTo8_length (bits : List Bit) : (padTo8 bits).length % 8 = 0 := by
  rw [padTo8_eq, List.length_append, List.length_replicate]
  omega

/-- Padding keeps every bit at most `1`. -/
theorem padTo8_le_one {bits : List Bit} (h : ∀ b ∈ bits, b ≤ 1) :
    ∀ b ∈ padTo8 bits, b ≤ 1 := by
  intro b hb
  rw [padTo8_eq] at hb
  rcases List.mem_append.mp hb with hb | hb
  · exact h b hb
  · rcases List.mem_replicate.mp hb with ⟨-, rfl⟩
    decide

/-- `byteToBits` written out as plain natural-number divisions. -/
theorem byteToBits_eq (n : Nat) :
    byteToBits n = ([n / 128 % 2, n / 64 % 2, n / 32 % 2, n / 16 % 2,
      n / 8 % 2, n / 4 % 2, n / 2 % 2, n / 1 % 2] : List Nat) := rfl

/-- Unpacking one packed byte of `0`/`1` bits recovers the 8 bits. -/
theorem byteToBits_byteOfBits (b0 b1 b2 b3 b4 b5 b6 b7 : Nat)
    (h0 : b0 ≤ 1) (h1 : b1 ≤ 1) (h2 : b2 ≤ 1) (h3 : b3 ≤ 1)
    (h4 : b4 ≤ 1) (h5 : b5 ≤ 1) (h6 : b6 ≤ 1) (h7 : b7 ≤ 1) :
    byteToBits (byteOfBits [b0, b1, b2, b3, b4, b5, b6, b7]) =
      [b0, b1, b2, b3, b4, b5, b6, b7] := by
  have hB : byteOfBits [b0, b1, b2, b3, b4, b5, b6, b7] =
      128 * b0 + 64 * b1 + 32 * b2 + 16 * b3 + 8 * b4 + 4 * b5 + 2 * b6 + b7 := by
    simp [byteOfBits]
    ring
  rw [byteToBits_eq, hB]
  clear hB
  simp only [List.cons.injEq, and_true]
  refine ⟨?_, ?_, ?_, ?_, ?_, ?_, ?_, ?_⟩ <;> omega

/-- Unpacking the packed bit stream recovers it exactly, for `0`/`1`
streams whose length is a multiple of 8. -/
theorem bytesToBits_bitsToBytes : ∀ bits : List Bit, (∀ b ∈ bits, b ≤ 1) →
    bits.length % 8 = 0 → bytesToBits (bitsToBytes bits) = bits := by
  intro bits
  induction bits using bitsToBytes.induct with
  | case1 =>
    intro _ _
    rfl
  | case2 b0 b1 b2 b3 b4 b5 b6 b7 rest ih =>
    intro hb hlen
    have hmem : ∀ b ∈ rest, b ≤ 1 := by
      intro b hbm
      exact hb b (by simp [hbm])
    have hlen2 : rest.length % 8 = 0 := by
      simp only [List.length_cons] at hlen
      omega
    rw [bitsToBytes]
    unfold bytesToBits
    rw [List.map_cons, List.flatten_cons]
    have hhd : byteToBits (byteOfBits [b0, b1, b2, b3, b4, b5, b6, b7]) =
        [b0, b1, b2, b3, b4, b5, b6, b7] :=
      byteToBits_byteOfBits b0 b1 b2 b3 b4 b5 b6 b7
        (hb b0 (by simp)) (hb b1 (by simp)) (hb b2 (by simp)) (hb b3 (by simp))
        (hb b4 (by simp)) (hb b5 (by simp)) (hb b6 (by simp)) (hb b7 (by simp))
    rw [hhd]
    have := ih hmem hlen2
    unfold bytesToBits at this
    rw [this]
    rfl
  | case3 bits h1 h2 =>
    intro hb hlen
    exfalso
    rcases bits with _ | ⟨a0, _ | ⟨a1, _ | ⟨a2, _ | ⟨a3, _ | ⟨a4, _ | ⟨a5, _ | ⟨a6, rest⟩⟩⟩⟩⟩⟩⟩
    · exact h1 rfl
    · simp only [List.length_cons, List.length_nil] at hlen; omega
    · simp only [List.length_cons, List.length_nil] at hlen; omega
    · simp only [List.length_cons, List.length_nil] at hlen; omega
    · simp only [List.length_cons, List.length_nil] at hlen; omega
    · simp only [List.length_cons, List.length_nil] at hlen; omega
    · simp only [List.length_cons, List.length_nil] at hlen; omega
    · rcases rest with _ | ⟨a7, rest2⟩
      · simp only [List.length_cons, List.length_nil] at hlen; omega
      · exact h2 a0 a1 a2 a3 a4 a5 a6 a7 rest2 rfl

/-! ## Feed congruence -/

/-- Reading a position of a dropped stream. -/
theorem getD_drop (l : List Bit) (n i : Nat) : (l.drop n).getD i 0 = l.getD (n + i) 0 := by
  simp [List.getD_eq_getElem?_getD, List.getElem?_drop]

/-- `headD` is `getD` at position `0`. -/
theorem headD_eq_getD (l : List Bit) : l.headD 0 = l.getD 0 0 := by
  cases l <;> rfl

/-- `FeedEq` passes to tails. -/
theorem FeedEq_tail {f1 f2 : List Bit} (h : FeedEq f1 f2) : FeedEq f1.tail f2.tail := by
  intro i
  rw [← List.drop_one, ← List.drop_one, getD_drop, getD_drop]
  exact h (1 + i)

/-- Feed-equivalent streams produce the same head bit. -/
theorem FeedEq_headD {f1 f2 : List Bit} (h : FeedEq f1 f2) : f1.headD 0 = f2.headD 0 := by
  rw [headD_eq_getD, headD_eq_getD]
  exact h 0

/-- Dropping from a stream equals dropping from its zero-padded extension,
up to the read-`0`-past-the-end convention. -/
theorem FeedEq_drop_append_zeros (bs : List Bit) (k n : Nat) :
    FeedEq (bs.drop n) ((bs ++ List.replicate k 0).drop n) := by
  intro i
  rw [getD_drop, getD_drop, getD_append_zeros]

/-- The decoder's renormalization loop reads the feed only through the
positions consumed: feed-equivalent inputs give the same interval and
value, and feed-equivalent residues. -/
theorem decodeRenorm_feedEq (fuel : Nat) :
    ∀ low high value f1 f2 l h v g1, FeedEq f1 f2 →
      decodeRenorm fuel low high value f1 = some (l, h, v, g1) →
      ∃ g2, decodeRenorm fuel low high value f2 = some (l, h, v, g2) ∧ FeedEq g1 g2 := by
  induction fuel with
  | zero =>
    intro low high value f1 f2 l h v g1 hfe heq
    cases heq
  | succ n ih =>
    intro low high value f1 f2 l h v g1 hfe heq
    rw [decodeRenorm] at heq ⊢
    have hhd := FeedEq_headD hfe
    by_cases hc1 : high < HALF
    · rw [if_pos hc1] at heq ⊢
      rw [← hhd]
      exact ih _ _ _ _ _ _ _ _ _ (FeedEq_tail hfe) heq
    · rw [if_neg hc1] at heq ⊢
      by_cases hc2 : HALF ≤ low
      · rw [if_pos hc2] at heq ⊢
        rw [← hhd]
        exact ih _ _ _ _ _ _ _ _ _ (FeedEq_tail hfe) heq
      · rw [if_neg hc2] at heq ⊢
        by_cases hc3 : QUARTER ≤ low ∧ high < THREE_QUARTERS
        · rw [if_pos hc3] at heq ⊢
          rw [← hhd]
          exact ih _ _ _ _ _ _ _ _ _ (FeedEq_tail hfe) heq
        · rw [if_neg hc3] at heq ⊢
          cases heq
          exact ⟨f2, rfl, hfe⟩

/-- The decoder's main loop gives the same symbols on feed-equivalent
inputs. -/
theorem decodeCore_feedEq (c : ArithmeticCoder) :
    ∀ (n : Nat) low high value f1 f2 r, FeedEq f1 f2 →
      decodeCore c n low high value f1 = some r →
      decodeCore c n low high value f2 = some r := by
  intro n
  induction n with
  | zero =>
    intro low high value f1 f2 r hfe heq
    exact heq
  | succ m ih =>
    intro low high value f1 f2 r hfe heq
    rw [decodeCore] at heq ⊢
    cases hfind : findCum (((value - low + 1) * c.total_freq - 1).fdiv (high - low + 1))
        c.cum_freq with
    | none =>
      simp only [hfind] at heq ⊢
      exact heq
    | some e =>
      obtain ⟨s, sl, sh⟩ := e
      simp only [hfind] at heq ⊢
      cases hren1 : decodeRenorm RENORM_FUEL
          (low + ((high - low + 1) * sl).fdiv c.total_freq)
          (low + ((high - low + 1) * sh).fdiv c.total_freq - 1) value f1 with
      | none => rw [hren1] at heq; cases heq
      | some quad =>
        obtain ⟨l, h, v, g1⟩ := quad
        rw [hren1] at heq
        simp only [] at heq
        cases hrest : decodeCore c m l h v g1 with
        | none => rw [hrest] at heq; cases heq
        | some syms =>
          rw [hrest] at heq
          cases heq
          obtain ⟨g2, hren2, hfe2⟩ := decodeRenorm_feedEq RENORM_FUEL _ _ _ _ _ _ _ _ _
            hfe hren1
          rw [hren2]
          simp only []
          rw [ih l h v g1 g2 syms hfe2 hrest]

/-! ## Totality of the two main loops -/

/-- Fuel sufficiency for the decoder's renormalization loop, with the
boundary invariant at the exit.  Termination does not depend on the
value register or the feed: the case conditions only inspect the
interval, which doubles in width every iteration. -/
theorem decodeRenorm_total (fuel : Nat) :
    ∀ low high value feed, 0 ≤ low → low ≤ high → high ≤ MAX_RANGE →
      HALF < 2 ^ fuel * (high - low + 1) →
      ∃ l h v f, decodeRenorm (fuel + 1) low high value feed = some (l, h, v, f) ∧
        BoundaryInv l h := by
  induction fuel with
  | zero =>
    intro low high value feed h0 hlh hhm hw
    have hH := HALF_lit
    have hQ := QUARTER_lit
    have hTQ := THREE_QUARTERS_lit
    have hM := MAX_RANGE_lit
    rw [pow_zero, one_mul] at hw
    refine ⟨low, high, value, feed, ?_, ?_⟩
    · rw [decodeRenorm, if_neg (by omega), if_neg (by omega), if_neg ?_]
      intro hcc
      omega
    · exact ⟨h0, by omega, by omega, hhm, by omega⟩
  | succ n ih =>
    intro low high value feed h0 hlh hhm hw
    have hH := HALF_lit
    have hQ := QUARTER_lit
    have hTQ := THREE_QUARTERS_lit
    have hM := MAX_RANGE_lit
    rw [decodeRenorm]
    by_cases hc1 : high < HALF
    · rw [if_pos hc1]
      have hw2 : HALF < 2 ^ n * (2 * high + 1 - 2 * low + 1) := by
        have he : (2 : Int) ^ n * (2 * high + 1 - 2 * low + 1) =
            2 ^ (n + 1) * (high - low + 1) := by
          rw [pow_succ]
          ring
        rw [he]
        exact hw
      exact ih _ _ _ _ (by omega) (by omega) (by omega) hw2
    · rw [if_neg hc1]
      by_cases hc2 : HALF ≤ low
      · rw [if_pos hc2]
        have hw2 : HALF < 2 ^ n * (2 * (high - HALF) + 1 - 2 * (low - HALF) + 1) := by
          have he : (2 : Int) ^ n * (2 * (high - HALF) + 1 - 2 * (low - HALF) + 1) =
              2 ^ (n + 1) * (high - low + 1) := by
            rw [pow_succ]
            ring
          rw [he]
          exact hw
        exact ih _ _ _ _ (by omega) (by omega) (by omega) hw2
      · rw [if_neg hc2]
        by_cases hc3 : QUARTER ≤ low ∧ high < THREE_QUARTERS
        · rw [if_pos hc3]
          have hw2 : HALF < 2 ^ n * (2 * (high - QUARTER) + 1 - 2 * (low - QUARTER) + 1) := by
            have he : (2 : Int) ^ n * (2 * (high - QUARTER) + 1 - 2 * (low - QUARTER) + 1) =
                2 ^ (n + 1) * (high - low + 1) := by
              rw [pow_succ]
              ring
            rw [he]
            exact hw
          exact ih _ _ _ _ (by omega) (by omega) (by omega) hw2
        · rw [if_neg hc3]
          refine ⟨low, high, value, feed, rfl, h0, by omega, by omega, hhm, by omega⟩

/-- Totality of the encoder's main loop: from a boundary state, with a
positive-weight cumulative layout whose total is at most `QUARTER`,
every sequence of known symbols encodes successfully. -/
theorem encodeCore_total (c : ArithmeticCoder) (ps : List (Int × Int))
    (hcum : c.cum_freq = cumChain 0 ps) (hpos : ∀ q ∈ ps, 0 < q.2)
    (htot : c.total_freq = (ps.map Prod.snd).sum) (hTQ : c.total_freq ≤ QUARTER) :
    ∀ ss low high p, BoundaryInv low high →
      (∀ s ∈ ss, s ∈ ps.map Prod.fst) →
      ∃ bs, encodeCore c low high p ss = some bs := by
  intro ss
  induction ss with
  | nil =>
    intro low high p hinv hmem
    rw [encodeCore]
    by_cases hlq : low < QUARTER
    · rw [if_pos hlq]
      exact ⟨_, rfl⟩
    · rw [if_neg hlq]
      exact ⟨_, rfl⟩
  | cons s rest ih =>
    intro low high p hinv hmem
    have hkey : s ∈ c.cum_freq.map Prod.fst := by
      rw [hcum, cumChain_keys]
      exact hmem s (List.mem_cons_self _ _)
    obtain ⟨pr, hlk⟩ := Option.isSome_iff_exists.mp (lookup_isSome_of_mem_keys hkey)
    obtain ⟨sl, sh⟩ := pr
    have hmem2 : (s, sl, sh) ∈ cumChain 0 ps := by
      rw [← hcum]
      exact lookup_mem hlk
    obtain ⟨hsl0, hslsh, hshS⟩ := cumChain_bounds ps hpos 0 (s, sl, sh) hmem2
    simp only [] at hsl0 hslsh hshS
    rw [zero_add] at hshS
    rw [← htot] at hshS
    have hTpos : 0 < c.total_freq := by omega
    obtain ⟨hnl0, hnlnh, hnhh, hlnl, -⟩ :=
      narrow_spec low high c.total_freq sl sh hinv hTpos hTQ hsl0 hslsh hshS
    have hhM : high ≤ MAX_RANGE := hinv.2.2.2.1
    have hwidth : HALF < 2 ^ 63 *
        (low + ((high - low + 1) * sh).fdiv c.total_freq - 1 -
          (low + ((high - low + 1) * sl).fdiv c.total_freq) + 1) := by
      have hH := HALF_lit
      have h1 : (1 : Int) ≤ low + ((high - low + 1) * sh).fdiv c.total_freq - 1 -
          (low + ((high - low + 1) * sl).fdiv c.total_freq) + 1 := by omega
      calc (HALF : Int) < 2 ^ 63 := by rw [hH]; norm_num
        _ = 2 ^ 63 * 1 := by ring
        _ ≤ _ := by
          apply mul_le_mul_of_nonneg_left h1
          positivity
    have hren0 : (encodeRenorm (63 + 1)
        (low + ((high - low + 1) * sl).fdiv c.total_freq)
        (low + ((high - low + 1) * sh).fdiv c.total_freq - 1) p).isSome :=
      encodeRenorm_total 63 _ _ p hnl0 (by omega) (by omega) hwidth
    obtain ⟨quad, hren⟩ := Option.isSome_iff_exists.mp hren0
    obtain ⟨emitted, l, h, p1⟩ := quad
    have hren2 : encodeRenorm RENORM_FUEL
        (low + ((high - low + 1) * sl).fdiv c.total_freq)
        (low + ((high - low + 1) * sh).fdiv c.total_freq - 1) p =
        some (emitted, l, h, p1) := hren
    obtain ⟨hinv1, -, -⟩ := encodeRenorm_sim RENORM_FUEL _ _ p emitted l h p1
      hren2 hnl0 (by omega) (by omega)
    obtain ⟨bs1, hrest⟩ := ih l h p1 hinv1 (fun q hq => hmem q (List.mem_cons_of_mem _ hq))
    refine ⟨emitted ++ bs1, ?_⟩
    rw [encodeCore, hlk]
    simp only []
    rw [hren2]
    simp only []
    rw [hrest]

/-- Totality of the decoder's main loop: from a boundary state, under
the same table conditions, the decoder never exhausts its fuel —
whatever the value register and feed hold. -/
theorem decodeCore_total (c : ArithmeticCoder) (ps : List (Int × Int))
    (hcum : c.cum_freq = cumChain 0 ps) (hpos : ∀ q ∈ ps, 0 < q.2)
    (htot : c.total_freq = (ps.map Prod.snd).sum) (hTQ : c.total_freq ≤ QUARTER) :
    ∀ (n : Nat) low high value feed, BoundaryInv low high →
      ∃ r, decodeCore c n low high value feed = some r := by
  intro n
  induction n with
  | zero =>
    intro low high value feed hinv
    exact ⟨[], rfl⟩
  | succ m ih =>
    intro low high value feed hinv
    cases hfind : findCum (((value - low + 1) * c.total_freq - 1).fdiv (high - low + 1))
        c.cum_freq with
    | none =>
      refine ⟨[], ?_⟩
      rw [decodeCore]
      simp only [hfind]
    | some e =>
      obtain ⟨s, sl, sh⟩ := e
      have hmemc := (findCum_some hfind).1
      rw [hcum] at hmemc
      obtain ⟨hsl0, hslsh, hshS⟩ := cumChain_bounds ps hpos 0 (s, sl, sh) hmemc
      simp only [] at hsl0 hslsh hshS
      rw [zero_add] at hshS
      rw [← htot] at hshS
      have hTpos : 0 < c.total_freq := by omega
      obtain ⟨hnl0, hnlnh, hnhh, hlnl, -⟩ :=
        narrow_spec low high c.total_freq sl sh hinv hTpos hTQ hsl0 hslsh hshS
      have hhM : high ≤ MAX_RANGE := hinv.2.2.2.1
      have hwidth : HALF < 2 ^ 63 *
          (low + ((high - low + 1) * sh).fdiv c.total_freq - 1 -
            (low + ((high - low + 1) * sl).fdiv c.total_freq) + 1) := by
        have hH := HALF_lit
        have h1 : (1 : Int) ≤ low + ((high - low + 1) * sh).fdiv c.total_freq - 1 -
            (low + ((high - low + 1) * sl).fdiv c.total_freq) + 1 := by omega
        calc (HALF : Int) < 2 ^ 63 := by rw [hH]; norm_num
          _ = 2 ^ 63 * 1 := by ring
          _ ≤ _ := by
            apply mul_le_mul_of_nonneg_left h1
            positivity
      obtain ⟨l, h, v, f, hren, hinv1⟩ := decodeRenorm_total 63
        (low + ((high - low + 1) * sl).fdiv c.total_freq)
        (low + ((high - low + 1) * sh).fdiv c.total_freq - 1) value feed
        hnl0 (by omega) (by omega) hwidth
      have hren2 : decodeRenorm RENORM_FUEL
          (low + ((high - low + 1) * sl).fdiv c.total_freq)
          (low + ((high - low + 1) * sh).fdiv c.total_freq - 1) value feed =
          some (l, h, v, f) := hren
      obtain ⟨syms, hrest⟩ := ih l h v f hinv1
      refine ⟨s :: syms, ?_⟩
      rw [decodeCore]
      simp only [hfind]
      rw [hren2]
      simp only []
      rw [hrest]

/-! ## The round trip assembled -/

/-- The initial interval `[0, MAX_RANGE]` is a boundary state. -/
theorem boundaryInv_init : BoundaryInv 0 MAX_RANGE := by
  unfold BoundaryInv
  have hH := HALF_lit
  have hQ := QUARTER_lit
  have hM := MAX_RANGE_lit
  refine ⟨by omega, by omega, by omega, by omega, Or.inl (by omega)⟩

/-- Round trip for an `ArithmeticCoder` built from a table of positive
weights with total at most `QUARTER`: encoding a sequence of known
symbols succeeds, and decoding the bytes with the sequence's length
returns exactly the sequence. -/
theorem coder_roundtrip (freqs : List (Int × Int)) (ss : List Int)
    (hpos : ∀ q ∈ freqs, 0 < q.2)
    (hTQ : (freqs.map Prod.snd).sum ≤ QUARTER)
    (hmem : ∀ s ∈ ss, s ∈ freqs.map Prod.fst) :
    ∃ data, encode (mkCoder freqs) ss = some data ∧
      decode (mkCoder freqs) data ss.length = some ss := by
  have hperm : (sortByKey freqs).Perm freqs := List.perm_insertionSort _ _
  have hpos2 : ∀ q ∈ sortByKey freqs, 0 < q.2 := fun q hq => hpos q (hperm.mem_iff.mp hq)
  have hcum : (mkCoder freqs).cum_freq = cumChain 0 (sortByKey freqs) := rfl
  have htot : (mkCoder freqs).total_freq = ((sortByKey freqs).map Prod.snd).sum :=
    ((hperm.map Prod.snd).sum_eq).symm
  have hTQ2 : (mkCoder freqs).total_freq ≤ QUARTER := hTQ
  have hmem2 : ∀ s ∈ ss, s ∈ (sortByKey freqs).map Prod.fst := by
    intro s hs
    obtain ⟨q, hq, rfl⟩ := List.mem_map.mp (hmem s hs)
    exact List.mem_map.mpr ⟨q, hperm.mem_iff.mpr hq, rfl⟩
  obtain ⟨bs, hbs⟩ := encodeCore_total (mkCoder freqs) (sortByKey freqs) hcum hpos2 htot hTQ2
    ss 0 MAX_RANGE 0 boundaryInv_init hmem2
  have hbits : ∀ b ∈ bs, b ≤ 1 :=
    (encodeCore_vOf_bounds (mkCoder freqs) (sortByKey freqs) hcum hpos2 htot hTQ2
      ss 0 MAX_RANGE 0 bs boundaryInv_init hbs).1
  refine ⟨bitsToBytes (padTo8 bs), ?_, ?_⟩
  · unfold encode
    rw [hbs]
    rfl
  · have hunpack : bytesToBits (bitsToBytes (padTo8 bs)) = padTo8 bs :=
      bytesToBits_bitsToBytes (padTo8 bs) (padTo8_le_one hbits) (padTo8_length bs)
    have hdef : decode (mkCoder freqs) (bitsToBytes (padTo8 bs)) ss.length =
        decodeCore (mkCoder freqs) ss.length 0 MAX_RANGE
          (intOfBits (takeD PRECISION_BITS (bytesToBits (bitsToBytes (padTo8 bs)))))
          ((bytesToBits (bitsToBytes (padTo8 bs))).drop PRECISION_BITS) := rfl
    rw [hdef, hunpack, padTo8_eq, takeD_append_zeros]
    have hdec := encodeCore_decodeCore (mkCoder freqs) (sortByKey freqs) hcum hpos2 htot hTQ2
      ss 0 MAX_RANGE 0 bs boundaryInv_init hbs
    rw [vOf_zero, Nat.add_zero] at hdec
    exact decodeCore_feedEq (mkCoder freqs) ss.length 0 MAX_RANGE
      (intOfBits (takeD PRECISION_BITS bs)) (bs.drop PRECISION_BITS)
      ((bs ++ List.replicate ((8 - bs.length % 8) % 8) 0).drop PRECISION_BITS) ss
      (FeedEq_drop_append_zeros bs _ PRECISION_BITS) hdec

/-! ## The trained frequency table -/

/-- `Counter.update` never stores a non-positive count. -/
theorem bumpCount_pos (w : Token) :
    ∀ acc : List (Token × Nat), (∀ p ∈ acc, 0 < p.2) → ∀ p ∈ bumpCount w acc, 0 < p.2 := by
  intro acc
  induction acc with
  | nil =>
    intro _ p hp
    rw [bumpCount] at hp
    rcases List.mem_singleton.mp hp with rfl
    exact Nat.one_pos
  | cons q rest ih =>
    obtain ⟨t, c⟩ := q
    intro hacc p hp
    rw [bumpCount] at hp
    by_cases htw : (t == w) = true
    · rw [if_pos htw] at hp
      rcases List.mem_cons.mp hp with rfl | hp
      · exact Nat.succ_pos c
      · exact hacc p (List.mem_cons_of_mem _ hp)
    · rw [if_neg htw] at hp
      rcases List.mem_cons.mp hp with rfl | hp
      · exact hacc (t, c) (List.mem_cons_self _ _)
      · exact ih (fun r hr => hacc r (List.mem_cons_of_mem _ hr)) p hp

/-- Every count `Counter()` produces over the corpus is positive. -/
theorem countTokens_pos (ts : List Token) : ∀ p ∈ countTokens ts, 0 < p.2 := by
  have hgen : ∀ (l : List Token) (acc : List (Token × Nat)), (∀ p ∈ acc, 0 < p.2) →
      ∀ p ∈ l.foldl (fun acc w => bumpCount w acc) acc, 0 < p.2 := by
    intro l
    induction l with
    | nil => intro acc hacc p hp; exact hacc p hp
    | cons w rest ih =>
      intro acc hacc p hp
      exact ih (bumpCount w acc) (bumpCount_pos w acc hacc) p hp
  exact hgen ts [] (fun p hp => absurd hp (List.not_mem_nil p))

/-- Membership through a Python `[:n]` slice. -/
theorem mem_pySliceTo {α : Type} {a : α} {n : Int} {l : List α}
    (h : a ∈ pySliceTo n l) : a ∈ l := by
  unfold pySliceTo at h
  split at h <;> exact (List.take_subset _ _) h

/-- Every weight of the trained frequency table is positive: the escape
weight is `max 1 _` and every vocabulary weight is a corpus count. -/
theorem trainTokens_freq_pos (tokens : List Token) (minFrequency : Nat)
    (maxVocabSize : Int) :
    ∀ q ∈ (trainTokens tokens minFrequency maxVocabSize).word_frequencies, 0 < q.2 := by
  intro q hq
  rcases List.mem_cons.mp hq with rfl | hq2
  · have h1 : (1 : Nat) ≤ max 1 ((((countTokens tokens).filter (fun p =>
        ((pySliceTo (maxVocabSize - 1) ((mostCommon (countTokens tokens)).filter
          (fun p => minFrequency ≤ p.2))).lookup p.1).isNone)).map Prod.snd).sum / 10) :=
      le_max_left _ _
    show (0 : Int) < ((max 1 _ : Nat) : Int)
    omega
  · obtain ⟨p, hp, rfl⟩ := List.mem_map.mp hq2
    have hps : p.2 ∈ pySliceTo (maxVocabSize - 1)
        ((mostCommon (countTokens tokens)).filter (fun r => minFrequency ≤ r.2)) := by
      have hm := List.mem_map_of_mem Prod.snd hp
      rwa [List.enum_map_snd] at hm
    have h1 := mem_pySliceTo hps
    have h2 := (List.mem_filter.mp h1).1
    unfold mostCommon at h2
    have h3 : p.2 ∈ countTokens tokens := (List.perm_insertionSort _ _).mem_iff.mp h2
    exact Int.natCast_pos.mpr (countTokens_pos tokens p.2 h3)

/-- An all-ASCII byte string is valid UTF-8. -/
theorem isValidUTF8_ascii : ∀ l : List Nat, (∀ b ∈ l, b < 128) → isValidUTF8 l = true := by
  intro l
  induction l with
  | nil => intro _; rfl
  | cons b rest ih =>
    intro h
    unfold isValidUTF8 at ih ⊢
    rw [utf8Run]
    rw [if_pos (h b (List.mem_cons_self _ _))]
    exact ih (fun x hx => h x (List.mem_cons_of_mem _ hx))

/-- The symbol-to-word loop succeeds on any symbols and offset when the
sidecar holds only ASCII bytes (every slice of it is then valid
UTF-8). -/
theorem wordsOfSymbols_total (iw : List (Int × Token)) (ud : List Nat)
    (hascii : ∀ b ∈ ud, b < 128) :
    ∀ (syms : List Int) (off : Nat), ∃ ws, wordsOfSymbols iw ud syms off = some ws := by
  intro syms
  induction syms with
  | nil => intro off; exact ⟨[], rfl⟩
  | cons s rest ih =>
    intro off
    rw [wordsOfSymbols]
    by_cases hesc : (s == ESCAPE_SYMBOL) = true
    · rw [if_pos hesc]
      by_cases hoff : off < ud.length
      · rw [if_pos hoff]
        simp only []
        have hval : isValidUTF8 ((ud.drop (off + 1)).take (ud.getD off 0)) = true := by
          apply isValidUTF8_ascii
          intro b hb
          exact hascii b ((List.drop_subset _ _) ((List.take_subset _ _) hb))
        rw [hval, if_pos rfl]
        obtain ⟨ws, hws⟩ := ih (off + 1 + ud.getD off 0)
        rw [hws]
        exact ⟨_, rfl⟩
      · rw [if_neg hoff]
        obtain ⟨ws, hws⟩ := ih off
        rw [hws]
        exact ⟨_, rfl⟩
    · rw [if_neg hesc]
      obtain ⟨ws, hws⟩ := ih off
      rw [hws]
      exact ⟨_, rfl⟩

/-- `decompress` never fails with a length- or header-related error on a
compressor whose coder was built from a positive table with total at
most `QUARTER`: on any input whose bytes are ASCII (so that every
sidecar slice is valid UTF-8 and the one genuine failure of
`decompress`, the `UnicodeDecodeError` of the sidecar decode, cannot
fire), every loop terminates and some text is produced, however the
header disagrees with the bytes present. -/
theorem decompress_total_of (tc : TextCompressor) (freqs : List (Int × Int))
    (hc : tc.coder = mkCoder freqs) (hpos : ∀ q ∈ freqs, 0 < q.2)
    (hTQ : (freqs.map Prod.snd).sum ≤ QUARTER) (compressed : List Nat)
    (hascii : ∀ b ∈ compressed, b < 128) :
    ∃ text, decompress tc compressed = some text := by
  have hperm : (sortByKey freqs).Perm freqs := List.perm_insertionSort _ _
  have hpos2 : ∀ q ∈ sortByKey freqs, 0 < q.2 := fun q hq => hpos q (hperm.mem_iff.mp hq)
  have hcum : tc.coder.cum_freq = cumChain 0 (sortByKey freqs) := by
    rw [hc]
    rfl
  have htot : tc.coder.total_freq = ((sortByKey freqs).map Prod.snd).sum := by
    rw [hc]
    exact ((hperm.map Prod.snd).sum_eq).symm
  have hTQ2 : tc.coder.total_freq ≤ QUARTER := by rw [hc]; exact hTQ
  by_cases hlen : compressed.length < 6
  · refine ⟨joinWords [], ?_⟩
    unfold decompress decompressWords
    rw [if_pos hlen]
    rfl
  · obtain ⟨r, hr⟩ := decodeCore_total tc.coder (sortByKey freqs) hcum hpos2 htot hTQ2
      (compressed.getD 0 0 * 2 ^ 16 + compressed.getD 1 0 * 2 ^ 8 + compressed.getD 2 0)
      0 MAX_RANGE
      (intOfBits (takeD PRECISION_BITS (bytesToBits ((compressed.drop 6).take
        (compressed.getD 3 0 * 2 ^ 16 + compressed.getD 4 0 * 2 ^ 8 +
          compressed.getD 5 0)))))
      ((bytesToBits ((compressed.drop 6).take
        (compressed.getD 3 0 * 2 ^ 16 + compressed.getD 4 0 * 2 ^ 8 +
          compressed.getD 5 0))).drop PRECISION_BITS)
      boundaryInv_init
    have hdec : decode tc.coder ((compressed.drop 6).take
        (compressed.getD 3 0 * 2 ^ 16 + compressed.getD 4 0 * 2 ^ 8 + compressed.getD 5 0))
        (compressed.getD 0 0 * 2 ^ 16 + compressed.getD 1 0 * 2 ^ 8 + compressed.getD 2 0) =
        some r := hr
    obtain ⟨ws, hws⟩ := wordsOfSymbols_total tc.id_to_word
      (compressed.drop (6 + (compressed.getD 3 0 * 2 ^ 16 + compressed.getD 4 0 * 2 ^ 8 +
        compressed.getD 5 0)))
      (fun b hb => hascii b ((List.drop_subset _ _) hb)) r 0
    refine ⟨joinWords ws, ?_⟩
    unfold decompress decompressWords
    rw [if_neg hlen]
    simp only [hdec, hws]
    rfl

/-! ## The token-to-symbol loop -/

/-- `compress` emits exactly one symbol per token. -/
theorem symbolsOf_length (wi : List (Token × Int)) :
    ∀ ws : List Token, ((symbolsOf wi ws).1).length = ws.length := by
  intro ws
  induction ws with
  | nil => rfl
  | cons w rest ih =>
    rw [symbolsOf]
    cases hlk : wi.lookup w with
    | some i =>
      simp only [hlk]
      rw [List.length_cons, List.length_cons, ih]
    | none =>
      simp only [hlk]
      rw [List.length_cons, List.length_cons, ih]

/-- Every emitted symbol is the escape symbol or a vocabulary ID. -/
theorem symbolsOf_mem (wi : List (Token × Int)) :
    ∀ (ws : List Token) (s : Int), s ∈ (symbolsOf wi ws).1 →
      s = ESCAPE_SYMBOL ∨ ∃ w, wi.lookup w = some s := by
  intro ws
  induction ws with
  | nil => intro s hs; cases hs
  | cons w rest ih =>
    intro s hs
    rw [symbolsOf] at hs
    cases hlk : wi.lookup w with
    | some i =>
      rw [hlk] at hs
      simp only [] at hs
      rcases List.mem_cons.mp hs with rfl | hs2
      · exact Or.inr ⟨w, hlk⟩
      · exact ih s hs2
    | none =>
      rw [hlk] at hs
      simp only [] at hs
      rcases List.mem_cons.mp hs with rfl | hs2
      · exact Or.inl rfl
      · exact ih s hs2

/-- Every sidecar word is an out-of-vocabulary word of the message. -/
theorem symbolsOf_unknown_mem (wi : List (Token × Int)) :
    ∀ (ws : List Token) (w : Token), w ∈ (symbolsOf wi ws).2 →
      w ∈ ws ∧ wi.lookup w = none := by
  intro ws
  induction ws with
  | nil => intro w hw; cases hw
  | cons v rest ih =>
    intro w hw
    rw [symbolsOf] at hw
    cases hlk : wi.lookup v with
    | some i =>
      rw [hlk] at hw
      simp only [] at hw
      obtain ⟨h1, h2⟩ := ih w hw
      exact ⟨List.mem_cons_of_mem _ h1, h2⟩
    | none =>
      rw [hlk] at hw
      simp only [] at hw
      rcases List.mem_cons.mp hw with rfl | hw2
      · exact ⟨List.mem_cons_self _ _, hlk⟩
      · obtain ⟨h1, h2⟩ := ih w hw2
        exact ⟨List.mem_cons_of_mem _ h1, h2⟩

/-- The sidecar builds successfully when every unknown word fits the one
byte length prefix. -/
theorem sidecarOf_isSome :
    ∀ us : List Token, (∀ w ∈ us, w.length < 256) → ∃ sc, sidecarOf us = some sc := by
  intro us
  induction us with
  | nil => intro _; exact ⟨[], rfl⟩
  | cons w rest ih =>
    intro h
    obtain ⟨sc, hsc⟩ := ih (fun x hx => h x (List.mem_cons_of_mem _ hx))
    refine ⟨w.length :: (w ++ sc), ?_⟩
    rw [sidecarOf, if_pos (h w (List.mem_cons_self _ _)), hsc]
    rfl

/-! ## The trained vocabulary maps -/

/-- A key found in the left part of an association list is found in the
whole list. -/
theorem lookup_append_some {α β : Type} [BEq α] {k : α} {v : β} :
    ∀ {l1 : List (α × β)} (l2 : List (α × β)), l1.lookup k = some v →
      (l1 ++ l2).lookup k = some v := by
  intro l1
  induction l1 with
  | nil => intro l2 h; cases h
  | cons q rest ih =>
    obtain ⟨a, b⟩ := q
    intro l2 h
    rw [List.lookup] at h
    rw [List.cons_append, List.lookup]
    cases hbeq : (k == a) with
    | true =>
      rw [hbeq] at h
      exact h
    | false =>
      rw [hbeq] at h
      exact ih l2 h

/-- Along the enumerated vocabulary, the word-to-ID and ID-to-word maps
of `train` are mutually consistent, and every ID exceeds the starting
index. -/
theorem lookup_enumFrom_consistent (L : List (Token × Nat)) :
    ∀ (n : Nat) (w : Token) (i : Int),
      ((List.enumFrom n L).map (fun p => (p.2.1, (p.1 : Int) + 1))).lookup w = some i →
      (n : Int) + 1 ≤ i ∧
        ((List.enumFrom n L).map (fun p => ((p.1 : Int) + 1, p.2.1))).lookup i = some w := by
  induction L with
  | nil => intro n w i h; cases h
  | cons q rest ih =>
    obtain ⟨t, c⟩ := q
    intro n w i h
    simp only [List.enumFrom, List.map_cons] at h ⊢
    rw [List.lookup] at h
    by_cases hw : (w == t) = true
    · rw [hw] at h
      have hwt : w = t := eq_of_beq hw
      have hi : i = (n : Int) + 1 := by
        have h2 : some ((n : Int) + 1) = some i := h
        exact (Option.some.injEq _ _ ▸ h2).symm
      refine ⟨le_of_eq hi.symm, ?_⟩
      rw [List.lookup]
      have hbeq : (i == (n : Int) + 1) = true := beq_iff_eq.mpr hi
      rw [hbeq, hwt]
    · rw [eq_false_of_ne_true hw] at h
      obtain ⟨hge, hlk⟩ := ih (n + 1) w i h
      have hge2 : (n : Int) + 2 ≤ i := by
        push_cast at hge
        omega
      refine ⟨by omega, ?_⟩
      rw [List.lookup]
      have hbeq : (i == (n : Int) + 1) = false := beq_eq_false_iff_ne.mpr (by omega)
      rw [hbeq]
      exact hlk

/-- The escape symbol is a key of the trained frequency table. -/
theorem trainTokens_escape_mem (tokens : List Token) (minFrequency : Nat)
    (maxVocabSize : Int) :
    ESCAPE_SYMBOL ∈ (trainTokens tokens minFrequency maxVocabSize).word_frequencies.map
      Prod.fst :=
  List.mem_map.mpr ⟨_, List.mem_cons_self _ _, rfl⟩

/-- What a successful `word_to_id` lookup on a trained compressor
guarantees: the ID is not the escape symbol, `id_to_word` inverts it,
and the ID is a key of the frequency table. -/
theorem trainTokens_lookup_spec (tokens : List Token) (minFrequency : Nat)
    (maxVocabSize : Int) (w : Token) (i : Int)
    (h : (trainTokens tokens minFrequency maxVocabSize).word_to_id.lookup w = some i) :
    i ≠ ESCAPE_SYMBOL ∧
      (trainTokens tokens minFrequency maxVocabSize).id_to_word.lookup i = some w ∧
      i ∈ (trainTokens tokens minFrequency maxVocabSize).word_frequencies.map Prod.fst := by
  obtain ⟨hge, hB⟩ := lookup_enumFrom_consistent _ 0 w i h
  refine ⟨?_, ?_, ?_⟩
  · intro he
    have hz : ESCAPE_SYMBOL = (0 : Int) := rfl
    rw [he, hz] at hge
    norm_num at hge
  · exact lookup_append_some _ hB
  · have hm := lookup_mem h
    obtain ⟨p, hp, heq⟩ := List.mem_map.mp hm
    simp only [Prod.mk.injEq] at heq
    obtain ⟨-, hi⟩ := heq
    refine List.mem_map.mpr ⟨((p.1 : Int) + 1, ((p.2.2 : Nat) : Int)), ?_, hi⟩
    exact List.mem_cons_of_mem _ (List.mem_map.mpr ⟨p, hp, rfl⟩)

/-! ## Escape restitution -/

/-- The symbol-to-word loop of `decompress` inverts the word-to-symbol
loop of `compress`: read against the sidecar at the matching offset,
every escape symbol restores its unknown word's exact bytes (each is
valid UTF-8 by hypothesis — it is the encoding of a Python string — so
the sidecar decode cannot raise) and every vocabulary ID resolves back
to its word. -/
theorem wordsOfSymbols_symbolsOf (wi : List (Token × Int)) (iw : List (Int × Token))
    (hcons : ∀ w i, wi.lookup w = some i →
      i ≠ ESCAPE_SYMBOL ∧ iw.lookup i = some w) :
    ∀ (ws : List Token) (consumed sc : List Nat),
      (∀ w ∈ ws, wi.lookup w = none → isValidUTF8 w = true) →
      sidecarOf (symbolsOf wi ws).2 = some sc →
      wordsOfSymbols iw (consumed ++ sc) (symbolsOf wi ws).1 consumed.length = some ws := by
  intro ws
  induction ws with
  | nil =>
    intro consumed sc hval hsc
    rfl
  | cons w rest ih =>
    intro consumed sc hval hsc
    have hval2 : ∀ x ∈ rest, wi.lookup x = none → isValidUTF8 x = true :=
      fun x hx => hval x (List.mem_cons_of_mem _ hx)
    rw [symbolsOf] at hsc ⊢
    cases hlk : wi.lookup w with
    | some i =>
      rw [hlk] at hsc
      simp only [] at hsc ⊢
      obtain ⟨hne, hiw⟩ := hcons w i hlk
      rw [wordsOfSymbols]
      rw [if_neg (by simp [hne])]
      rw [hiw]
      simp only []
      rw [ih consumed sc hval2 hsc]
      rfl
    | none =>
      rw [hlk] at hsc
      simp only [] at hsc ⊢
      rw [sidecarOf] at hsc
      by_cases hw : w.length < 256
      · rw [if_pos hw] at hsc
        obtain ⟨sc2, hsc2, rfl⟩ := Option.map_eq_some'.mp hsc
        rw [wordsOfSymbols]
        rw [if_pos (by rfl : ((ESCAPE_SYMBOL == ESCAPE_SYMBOL) = true))]
        rw [if_pos (show consumed.length <
            (consumed ++ (w.length :: (w ++ sc2))).length by
          rw [List.length_append, List.length_cons]
          omega)]
        simp only []
        have hgetD : (consumed ++ (w.length :: (w ++ sc2))).getD consumed.length 0 =
            w.length := by
          rw [List.getD_append_right _ _ _ _ (le_refl _)]
          simp
        rw [hgetD]
        have hdrop : (consumed ++ (w.length :: (w ++ sc2))).drop (consumed.length + 1) =
            w ++ sc2 := by
          rw [show consumed.length + 1 = consumed.length + 1 from rfl, List.drop_append]
          rfl
        rw [hdrop, List.take_left]
        have hvw : isValidUTF8 w = true := hval w (List.mem_cons_self _ _) hlk
        rw [hvw, if_pos rfl]
        have hfeed : consumed ++ (w.length :: (w ++ sc2)) =
            (consumed ++ (w.length :: w)) ++ sc2 := by
          simp [List.cons_append, List.append_assoc]
        have hoff : consumed.length + 1 + w.length =
            (consumed ++ (w.length :: w)).length := by
          rw [List.length_append, List.length_cons]
          omega
        rw [hfeed, hoff, ih (consumed ++ (w.length :: w)) sc2 hval2 hsc2]
        rfl
      · rw [if_neg hw] at hsc
        cases hsc

/-! ## Output length bounds -/

/-- Each renormalization loop emits at most its pending debt plus one
bit per iteration, counting the leftover pending bits. -/
theorem encodeRenorm_len (fuel : Nat) :
    ∀ low high p e l h p1, encodeRenorm fuel low high p = some (e, l, h, p1) →
      e.length + p1 ≤ p + fuel := by
  induction fuel with
  | zero => intro low high p e l h p1 heq; cases heq
  | succ n ih =>
    intro low high p e l h p1 heq
    rw [encodeRenorm] at heq
    by_cases hc1 : high < HALF
    · rw [if_pos hc1] at heq
      cases hrec : encodeRenorm n (2 * low) (2 * high + 1) 0 with
      | none => rw [hrec] at heq; cases heq
      | some quad =>
        obtain ⟨b1, l1, h1, p11⟩ := quad
        rw [hrec] at heq
        simp only [Option.some.injEq, Prod.mk.injEq] at heq
        obtain ⟨hemit, -, -, hp1⟩ := heq
        have hb := ih _ _ _ _ _ _ _ hrec
        rw [← hemit, ← hp1]
        simp only [List.length_cons, List.length_append, List.length_replicate]
        omega
    · rw [if_neg hc1] at heq
      by_cases hc2 : HALF ≤ low
      · rw [if_pos hc2] at heq
        cases hrec : encodeRenorm n (2 * (low - HALF)) (2 * (high - HALF) + 1) 0 with
        | none => rw [hrec] at heq; cases heq
        | some quad =>
          obtain ⟨b1, l1, h1, p11⟩ := quad
          rw [hrec] at heq
          simp only [Option.some.injEq, Prod.mk.injEq] at heq
          obtain ⟨hemit, -, -, hp1⟩ := heq
          have hb := ih _ _ _ _ _ _ _ hrec
          rw [← hemit, ← hp1]
          simp only [List.length_cons, List.length_append, List.length_replicate]
          omega
      · rw [if_neg hc2] at heq
        by_cases hc3 : QUARTER ≤ low ∧ high < THREE_QUARTERS
        · rw [if_pos hc3] at heq
          have hb := ih _ _ _ _ _ _ _ heq
          omega
        · rw [if_neg hc3] at heq
          simp only [Option.some.injEq, Prod.mk.injEq] at heq
          obtain ⟨hemit, -, -, hp1⟩ := heq
          rw [← hemit, ← hp1]
          simp only [List.length_nil]
          omega

/-- The whole emitted bit stream is linear in the number of symbols. -/
theorem encodeCore_len (c : ArithmeticCoder) :
    ∀ ss low high p bs, encodeCore c low high p ss = some bs →
      bs.length ≤ p + (RENORM_FUEL + 2) * (ss.length + 1) := by
  intro ss
  induction ss with
  | nil =>
    intro low high p bs heq
    have hF : RENORM_FUEL = 64 := rfl
    rw [encodeCore] at heq
    by_cases hlq : low < QUARTER
    · rw [if_pos hlq] at heq
      cases heq
      simp only [List.length_cons, List.length_replicate, List.length_nil]
      omega
    · rw [if_neg hlq] at heq
      cases heq
      simp only [List.length_cons, List.length_replicate, List.length_nil]
      omega
  | cons s rest ih =>
    intro low high p bs heq
    have hF : RENORM_FUEL = 64 := rfl
    rw [encodeCore] at heq
    cases hlk : c.cum_freq.lookup s with
    | none => rw [hlk] at heq; cases heq
    | some pr =>
      obtain ⟨sl, sh⟩ := pr
      rw [hlk] at heq
      simp only [] at heq
      cases hren : encodeRenorm RENORM_FUEL
          (low + ((high - low + 1) * sl).fdiv c.total_freq)
          (low + ((high - low + 1) * sh).fdiv c.total_freq - 1) p with
      | none => rw [hren] at heq; cases heq
      | some quad =>
        obtain ⟨emitted, l, h, p1⟩ := quad
        rw [hren] at heq
        simp only [] at heq
        cases hrest : encodeCore c l h p1 rest with
        | none => rw [hrest] at heq; cases heq
        | some bs1 =>
          rw [hrest] at heq
          cases heq
          have h1 := encodeRenorm_len RENORM_FUEL _ _ _ _ _ _ _ hren
          have h2 := ih l h p1 bs1 hrest
          rw [List.length_append, List.length_cons]
          have hmul : (RENORM_FUEL + 2) * (rest.length + 1 + 1) =
              (RENORM_FUEL + 2) * (rest.length + 1) + (RENORM_FUEL + 2) := by ring
          rw [hmul]
          omega

/-- Packing a stream whose length is a multiple of 8 gives exactly one
byte per 8 bits. -/
theorem bitsToBytes_length : ∀ bits : List Bit, bits.length % 8 = 0 →
    (bitsToBytes bits).length * 8 = bits.length := by
  intro bits
  induction bits using bitsToBytes.induct with
  | case1 => intro _; rfl
  | case2 b0 b1 b2 b3 b4 b5 b6 b7 rest ih =>
    intro hlen
    have hlen2 : rest.length % 8 = 0 := by
      simp only [List.length_cons] at hlen
      omega
    rw [bitsToBytes]
    simp only [List.length_cons]
    have hr := ih hlen2
    omega
  | case3 bits h1 h2 =>
    intro hlen
    exfalso
    rcases bits with _ | ⟨a0, _ | ⟨a1, _ | ⟨a2, _ | ⟨a3, _ | ⟨a4, _ | ⟨a5, _ | ⟨a6, rest⟩⟩⟩⟩⟩⟩⟩
    · exact h1 rfl
    · simp only [List.length_cons, List.length_nil] at hlen; omega
    · simp only [List.length_cons, List.length_nil] at hlen; omega
    · simp only [List.length_cons, List.length_nil] at hlen; omega
    · simp only [List.length_cons, List.length_nil] at hlen; omega
    · simp only [List.length_cons, List.length_nil] at hlen; omega
    · simp only [List.length_cons, List.length_nil] at hlen; omega
    · rcases rest with _ | ⟨a7, rest2⟩
      · simp only [List.length_cons, List.length_nil] at hlen; omega
      · exact h2 a0 a1 a2 a3 a4 a5 a6 a7 rest2 rfl

/-- The byte output of `encode` is linear in the number of symbols. -/
theorem encode_length (c : ArithmeticCoder) (ss : List Int) (data : List Nat)
    (h : encode c ss = some data) :
    8 * data.length ≤ (RENORM_FUEL + 2) * (ss.length + 1) + 7 := by
  unfold encode at h
  cases hbs : encodeCore c 0 MAX_RANGE 0 ss with
  | none => rw [hbs] at h; cases h
  | some bs =>
    rw [hbs] at h
    simp only [Option.map_some'] at h
    cases h
    have h1 := encodeCore_len c ss 0 MAX_RANGE 0 bs hbs
    have h2 : (padTo8 bs).length % 8 = 0 := padTo8_length bs
    have h3 : (padTo8 bs).length ≤ bs.length + 7 := by
      rw [padTo8_eq, List.length_append, List.length_replicate]
      omega
    have h4 : (bitsToBytes (padTo8 bs)).length * 8 = (padTo8 bs).length :=
      bitsToBytes_length _ h2
    omega

/-- Compress-then-decompress at the word level, for a compressor whose
coder is built from its own positive frequency table (exactly as
`train` builds it), a message of fewer than `2^20` words, and unknown
words under 256 bytes: the container is produced and decompressing it
returns exactly the original word list. -/
theorem compressWords_roundtrip (tc : TextCompressor)
    (hc : tc.coder = mkCoder tc.word_frequencies)
    (hpos : ∀ q ∈ tc.word_frequencies, 0 < q.2)
    (hTQ : (tc.word_frequencies.map Prod.snd).sum ≤ QUARTER)
    (hesc : ESCAPE_SYMBOL ∈ tc.word_frequencies.map Prod.fst)
    (hid : ∀ w i, tc.word_to_id.lookup w = some i →
      i ≠ ESCAPE_SYMBOL ∧ tc.id_to_word.lookup i = some w ∧
        i ∈ tc.word_frequencies.map Prod.fst)
    (words : List Token)
    (hcount : words.length < 2 ^ 20)
    (hunk : ∀ w ∈ words, tc.word_to_id.lookup w = none →
      w.length < 256 ∧ isValidUTF8 w = true) :
    ∃ out, compressWords tc words = some out ∧
      decompressWords tc out = some words := by
  obtain ⟨syms, unks, hsw⟩ : ∃ a b, symbolsOf tc.word_to_id words = (a, b) := ⟨_, _, rfl⟩
  have hsyms1 : (symbolsOf tc.word_to_id words).1 = syms := by rw [hsw]
  have hsyms2 : (symbolsOf tc.word_to_id words).2 = unks := by rw [hsw]
  have hmem : ∀ s ∈ syms, s ∈ tc.word_frequencies.map Prod.fst := by
    intro s hs
    rcases symbolsOf_mem tc.word_to_id words s (by rw [hsyms1]; exact hs) with rfl | ⟨w, hw⟩
    · exact hesc
    · exact (hid w s hw).2.2
  obtain ⟨data, henc, hdec⟩ := coder_roundtrip tc.word_frequencies syms hpos hTQ hmem
  have henc2 : encode tc.coder syms = some data := by rw [hc]; exact henc
  have hdec2 : decode tc.coder data syms.length = some syms := by rw [hc]; exact hdec
  obtain ⟨ud, hud⟩ := sidecarOf_isSome unks (by
    intro w hw
    obtain ⟨hmw, hnone⟩ := symbolsOf_unknown_mem tc.word_to_id words w
      (by rw [hsyms2]; exact hw)
    exact (hunk w hmw hnone).1)
  have hlen_syms : syms.length = words.length := by
    rw [← hsyms1, symbolsOf_length]
  have h16 : (2 : Nat) ^ 16 = 65536 := by norm_num
  have h8l : (2 : Nat) ^ 8 = 256 := by norm_num
  have h20 : (2 : Nat) ^ 20 = 1048576 := by norm_num
  rw [h20] at hcount
  have hn24 : syms.length < 16777216 := by omega
  have he24 : data.length < 16777216 := by
    have h8 := encode_length tc.coder syms data henc2
    simp only [RENORM_FUEL] at h8
    omega
  refine ⟨headerBytes syms.length data.length ++ data ++ ud, ?_, ?_⟩
  · unfold compressWords
    simp only [hsw, henc2, hud]
  · have hout6 : (headerBytes syms.length data.length).length = 6 := rfl
    have hassoc : headerBytes syms.length data.length ++ data ++ ud =
        headerBytes syms.length data.length ++ (data ++ ud) := List.append_assoc _ _ _
    have hlen6 : ¬((headerBytes syms.length data.length ++ data ++ ud).length < 6) := by
      rw [hassoc, List.length_append, hout6]
      omega
    have hg0 : (headerBytes syms.length data.length ++ data ++ ud).getD 0 0 =
        syms.length / 2 ^ 16 % 256 := by
      rw [hassoc, List.getD_append _ _ _ _ (by rw [hout6]; omega)]
      rfl
    have hg1 : (headerBytes syms.length data.length ++ data ++ ud).getD 1 0 =
        syms.length / 2 ^ 8 % 256 := by
      rw [hassoc, List.getD_append _ _ _ _ (by rw [hout6]; omega)]
      rfl
    have hg2 : (headerBytes syms.length data.length ++ data ++ ud).getD 2 0 =
        syms.length % 256 := by
      rw [hassoc, List.getD_append _ _ _ _ (by rw [hout6]; omega)]
      rfl
    have hg3 : (headerBytes syms.length data.length ++ data ++ ud).getD 3 0 =
        data.length / 2 ^ 16 % 256 := by
      rw [hassoc, List.getD_append _ _ _ _ (by rw [hout6]; omega)]
      rfl
    have hg4 : (headerBytes syms.length data.length ++ data ++ ud).getD 4 0 =
        data.length / 2 ^ 8 % 256 := by
      rw [hassoc, List.getD_append _ _ _ _ (by rw [hout6]; omega)]
      rfl
    have hg5 : (headerBytes syms.length data.length ++ data ++ ud).getD 5 0 =
        data.length % 256 := by
      rw [hassoc, List.getD_append _ _ _ _ (by rw [hout6]; omega)]
      rfl
    have hnum : (headerBytes syms.length data.length ++ data ++ ud).getD 0 0 * 2 ^ 16 +
        (headerBytes syms.length data.length ++ data ++ ud).getD 1 0 * 2 ^ 8 +
        (headerBytes syms.length data.length ++ data ++ ud).getD 2 0 = syms.length := by
      rw [hg0, hg1, hg2, h16, h8l]
      omega
    have hencl : (headerBytes syms.length data.length ++ data ++ ud).getD 3 0 * 2 ^ 16 +
        (headerBytes syms.length data.length ++ data ++ ud).getD 4 0 * 2 ^ 8 +
        (headerBytes syms.length data.length ++ data ++ ud).getD 5 0 = data.length := by
      rw [hg3, hg4, hg5, h16, h8l]
      omega
    have hdrop6 : (headerBytes syms.length data.length ++ data ++ ud).drop 6 =
        data ++ ud := by
      rw [hassoc,
        show (6 : Nat) = (headerBytes syms.length data.length).length from hout6.symm,
        List.drop_left]
    have htakeE : (data ++ ud).take data.length = data := List.take_left data ud
    have hdropE : (headerBytes syms.length data.length ++ data ++ ud).drop
        (6 + data.length) = ud := by
      rw [hassoc,
        show (6 : Nat) + data.length =
          (headerBytes syms.length data.length).length + data.length from by rw [hout6],
        List.drop_append, List.drop_left]
    unfold decompressWords
    rw [if_neg hlen6]
    simp only [hnum, hencl, hdrop6, htakeE, hdropE]
    simp only [hdec2]
    have hrest := wordsOfSymbols_symbolsOf tc.word_to_id tc.id_to_word
      (fun w i hw => ⟨(hid w i hw).1, (hid w i hw).2.1⟩) words [] ud
      (fun w hw hnone => (hunk w hw hnone).2)
      (by rw [hsyms2]; exact hud)
    rw [List.nil_append, hsyms1] at hrest
    simp only [List.length_nil] at hrest
    rw [hrest]

/-! ## Claim C1 -/

/-- Claim C1, counterexample to the statement as written: the sequence
`[0]` consists of symbols present in the cumulative frequency table of
the coder built from `{0: 0, 1: 1}` (the table assigns `0` the empty
interval `[0, 0)`), yet `decode(encode([0]), 1)` does not return `[0]`:
`encode` never terminates on a zero-width symbol (its renormalization
loop emits `0` bits forever, see `encodeRenorm_zero_width_diverges`), so
the round trip produces nothing at all. -/
theorem C1_counterexample :
    (mkCoder [(0, 0), (1, 1)]).cum_freq.lookup 0 = some (0, 0) ∧
      ((encode (mkCoder [(0, 0), (1, 1)]) [0]).bind
        (fun data => decode (mkCoder [(0, 0), (1, 1)]) data 1)) ≠ some [0] := by
  decide

/-- Claim C1, amended: the round trip law holds once the claim's
tacit preconditions are added — every frequency in the table is
positive and the total is at most `QUARTER = 2^30` (the source works in
32-bit arithmetic, and larger totals make the narrowed sub-intervals
collapse).  Under them, every sequence of symbols present in the table
encodes successfully and decodes back to exactly itself. -/
theorem C1_roundtrip (freqs : List (Int × Int)) (ss : List Int)
    (hpos : ∀ q ∈ freqs, 0 < q.2)
    (hTQ : (freqs.map Prod.snd).sum ≤ QUARTER)
    (hmem : ∀ s ∈ ss, s ∈ freqs.map Prod.fst) :
    ∃ data, encode (mkCoder freqs) ss = some data ∧
      decode (mkCoder freqs) data ss.length = some ss :=
  coder_roundtrip freqs ss hpos hTQ hmem

/-- The spec's concrete scenario under the amended round trip: table
`{0: 1, 1: 3, 2: 2}` (total `6`), message `[1, 1, 2]`, decoded with
`num_symbols = 3`. -/
theorem C1_roundtrip_witness :
    (∀ q ∈ [((0 : Int), (1 : Int)), (1, 3), (2, 2)], 0 < q.2) ∧
    (([((0 : Int), (1 : Int)), (1, 3), (2, 2)].map Prod.snd).sum ≤ QUARTER) ∧
    (∀ s ∈ [(1 : Int), 1, 2], s ∈ [((0 : Int), (1 : Int)), (1, 3), (2, 2)].map Prod.fst) ∧
    ∃ data, encode (mkCoder [((0 : Int), (1 : Int)), (1, 3), (2, 2)]) [1, 1, 2] =
        some data ∧
      decode (mkCoder [((0 : Int), (1 : Int)), (1, 3), (2, 2)]) data
        ([(1 : Int), 1, 2]).length = some [1, 1, 2] :=
  ⟨by decide, by decide, by decide,
    C1_roundtrip [((0 : Int), (1 : Int)), (1, 3), (2, 2)] [1, 1, 2]
      (by decide) (by decide) (by decide)⟩

/-! ## Claim C2 -/

/-- Claim C2: for every frequency table with positive integer weights,
the cumulative table built by `ArithmeticCoder.__init__` tiles
`[0, total_freq)`: every interval is non-empty and contained in
`[0, total_freq)`, and every value `v` in `[0, total_freq)` lies in
exactly one entry's half-open interval — the one the decoder's linear
search returns. -/
theorem C2_tiling (freqs : List (Int × Int)) (hpos : ∀ p ∈ freqs, 0 < p.2)
    (v : Int) (h0 : 0 ≤ v) (hv : v < (mkCoder freqs).total_freq) :
    (∀ e ∈ (mkCoder freqs).cum_freq,
        0 ≤ e.2.1 ∧ e.2.1 < e.2.2 ∧ e.2.2 ≤ (mkCoder freqs).total_freq) ∧
      ∃ e, findCum v (mkCoder freqs).cum_freq = some e ∧
        e ∈ (mkCoder freqs).cum_freq ∧ e.2.1 ≤ v ∧ v < e.2.2 ∧
        ∀ e' ∈ (mkCoder freqs).cum_freq, e'.2.1 ≤ v → v < e'.2.2 → e' = e := by
  have hperm : List.Perm (sortByKey freqs) freqs := List.perm_insertionSort _ freqs
  have hpos' : ∀ p ∈ sortByKey freqs, 0 < p.2 := fun p hp => hpos p (hperm.mem_iff.mp hp)
  have hsum : (((sortByKey freqs).map Prod.snd).sum : Int) = (freqs.map Prod.snd).sum :=
    (hperm.map Prod.snd).sum_eq
  have htot : (mkCoder freqs).total_freq = (freqs.map Prod.snd).sum := rfl
  have hcum : (mkCoder freqs).cum_freq = cumChain 0 (sortByKey freqs) := rfl
  constructor
  · intro e he
    rw [hcum] at he
    obtain ⟨h1, h2, h3⟩ := cumChain_bounds _ hpos' 0 e he
    rw [htot]
    refine ⟨h1, h2, ?_⟩
    rw [← hsum]
    linarith
  · obtain ⟨e, hfind, hmem, hlo, hhi⟩ := findCum_covers _ hpos' 0 v h0
      (by rw [htot, ← hsum] at hv; linarith)
    rw [hcum]
    refine ⟨e, hfind, hmem, hlo, hhi, ?_⟩
    intro e' hmem' hlo' hhi'
    exact cumChain_unique _ hpos' 0 v e' e hmem' hmem hlo' hhi' hlo hhi

/-- Witness for C2 at the spec's concrete table `{0: 1, 1: 3, 2: 2}` and
the value `v = 4`. -/
theorem C2_tiling_witness :
    (∀ e ∈ (mkCoder [(0, 1), (1, 3), (2, 2)]).cum_freq,
        0 ≤ e.2.1 ∧ e.2.1 < e.2.2 ∧ e.2.2 ≤ (mkCoder [(0, 1), (1, 3), (2, 2)]).total_freq) ∧
      ∃ e, findCum 4 (mkCoder [(0, 1), (1, 3), (2, 2)]).cum_freq = some e ∧
        e ∈ (mkCoder [(0, 1), (1, 3), (2, 2)]).cum_freq ∧ e.2.1 ≤ 4 ∧ (4 : Int) < e.2.2 ∧
        ∀ e' ∈ (mkCoder [(0, 1), (1, 3), (2, 2)]).cum_freq, e'.2.1 ≤ 4 → (4 : Int) < e'.2.2 → e' = e :=
  C2_tiling [(0, 1), (1, 3), (2, 2)] (by decide) 4 (by decide) (by decide)

/-! ## Claim C3 -/

/-- Claim C3: `ArithmeticCoder.encode` and `TextCompressor.compress` are
deterministic — equal inputs under the same frequency table / trained
state give identical byte strings.  The embedding is a pure function of
the table and the input (the source reads no state besides them), so
determinism is equality under equal arguments. -/
theorem C3_deterministic (freqs : List (Int × Int)) (tc : TextCompressor)
    (s1 s2 : List Int) (w1 w2 : List Token) (hs : s1 = s2) (hw : w1 = w2) :
    encode (mkCoder freqs) s1 = encode (mkCoder freqs) s2 ∧
      compressWords tc w1 = compressWords tc w2 :=
  ⟨by rw [hs], by rw [hw]⟩

/-- Witness for C3 at the spec's concrete table and the sequence
`[1, 1, 2]`, and at a one-word trained compressor. -/
theorem C3_deterministic_witness :
    encode (mkCoder [(0, 1), (1, 3), (2, 2)]) [1, 1, 2] =
        encode (mkCoder [(0, 1), (1, 3), (2, 2)]) [1, 1, 2] ∧
      compressWords (trainTokens [[97], [97]] 2 16384) [[97]] =
        compressWords (trainTokens [[97], [97]] 2 16384) [[97]] :=
  C3_deterministic [(0, 1), (1, 3), (2, 2)] (trainTokens [[97], [97]] 2 16384)
    [1, 1, 2] [1, 1, 2] [[97]] [[97]] rfl rfl

/-! ## Claim C4 -/

set_option maxRecDepth 4096 in
/-- Claim C4, counterexample to the statement as written: an unknown
token of 256 bytes is not reproduced — `compress` itself fails on it
(`bytearray.append` of its length raises `ValueError`, modelled as
`none`), so there is no output to decompress at all. -/
theorem C4_counterexample :
    compressWords (trainTokens [] 2 16384) [List.replicate 256 97] = none := by
  decide

/-- Claim C4, amended: restricted to unknown tokens under 256 bytes
(the capacity of the one byte sidecar length prefix) that are valid
UTF-8 (every token is, being the UTF-8 encoding of a Python string, so
the sidecar decode of `decompress` cannot raise) — and a message of
fewer than `2^20` words on a trained compressor whose total frequency
fits `QUARTER` — compress-then-decompress reproduces the original word
list exactly; in particular every unknown token's raw UTF-8 bytes come
back unchanged, independent of their content. -/
theorem C4_escape_roundtrip (tokens : List Token) (minFrequency : Nat)
    (maxVocabSize : Int) (words : List Token)
    (hTQ : (trainTokens tokens minFrequency maxVocabSize).coder.total_freq ≤ QUARTER)
    (hcount : words.length < 2 ^ 20)
    (hunk : ∀ w ∈ words,
      (trainTokens tokens minFrequency maxVocabSize).word_to_id.lookup w = none →
      w.length < 256 ∧ isValidUTF8 w = true) :
    ∃ out, compressWords (trainTokens tokens minFrequency maxVocabSize) words =
        some out ∧
      decompressWords (trainTokens tokens minFrequency maxVocabSize) out = some words :=
  compressWords_roundtrip (trainTokens tokens minFrequency maxVocabSize) rfl
    (trainTokens_freq_pos tokens minFrequency maxVocabSize) hTQ
    (trainTokens_escape_mem tokens minFrequency maxVocabSize)
    (fun w i hw => trainTokens_lookup_spec tokens minFrequency maxVocabSize w i hw)
    words hcount hunk

/-- Witness for the amended C4: vocabulary trained on `'a a'`, message
`'a bc'` with `'bc'` unknown. -/
theorem C4_escape_roundtrip_witness :
    ((trainTokens [[97], [97]] 2 16384).coder.total_freq ≤ QUARTER) ∧
    (([[97], [98, 99]] : List Token).length < 2 ^ 20) ∧
    (∀ w ∈ ([[97], [98, 99]] : List Token),
      (trainTokens [[97], [97]] 2 16384).word_to_id.lookup w = none →
        w.length < 256 ∧ isValidUTF8 w = true) ∧
    ∃ out, compressWords (trainTokens [[97], [97]] 2 16384) [[97], [98, 99]] =
        some out ∧
      decompressWords (trainTokens [[97], [97]] 2 16384) out = some [[97], [98, 99]] :=
  ⟨by decide, by decide, by decide,
    C4_escape_roundtrip [[97], [97]] 2 16384 [[97], [98, 99]]
      (by decide) (by decide) (by decide)⟩

/-! ## Claim C5 -/

/-- An association-list lookup fails exactly when the key is absent. -/
theorem lookup_isNone_iff {α β : Type} [BEq α] [LawfulBEq α] (k : α) (l : List (α × β)) :
    (l.lookup k).isNone ↔ ∀ p ∈ l, p.1 ≠ k := by
  induction l with
  | nil => simp [List.lookup]
  | cons p rest ih =>
    obtain ⟨a, b⟩ := p
    cases hbeq : (k == a) with
    | true =>
      have ha : k = a := eq_of_beq hbeq
      simp only [List.lookup, hbeq, Option.isNone_some, Bool.false_eq_true, false_iff]
      intro hall
      exact (hall (a, b) (List.mem_cons_self _ _)) ha.symm
    | false =>
      have hne : a ≠ k := fun e => by rw [e] at hbeq; simp at hbeq
      simp only [List.lookup, hbeq, ih, List.mem_cons]
      constructor
      · intro hall q hq
        rcases hq with rfl | hq
        · exact hne
        · exact hall q hq
      · intro hall q hq
        exact hall q (Or.inr hq)

/-- Every element of a list appears in the image of its `enum` under the
ID-assigning map of `train`. -/
theorem mem_vocab_of_mem_common (common : List (Token × Nat)) (w : Token) (c : Nat)
    (h : (w, c) ∈ common) :
    ∃ i, (w, i) ∈ common.enum.map (fun p => (p.2.1, (p.1 : Int) + 1)) := by
  obtain ⟨n, hn, hget⟩ := List.mem_iff_getElem.mp h
  refine ⟨(n : Int) + 1, List.mem_map.mpr ⟨(n, (w, c)), ?_, by simp⟩⟩
  have hn2 : n < common.enum.length := by simpa [List.enum_length] using hn
  have he : common.enum[n] = (n, common[n]) := List.getElem_enum common n _
  rw [hget] at he
  exact he ▸ List.getElem_mem _

/-- Claim C5: after `train`, the vocabulary is the descending-frequency
list of tokens with count at least `min_frequency`, truncated to
`max_vocab_size - 1` entries, with dense IDs `1..N` assigned in that
order, and the escape symbol's frequency is
`max(1, excluded_total // 10)` where `excluded_total` sums the counts of
all tokens left out of the vocabulary.  Stated as: (i) the IDs are
`1..N` in order; (ii) the vocabulary has at most `max_vocab_size - 1`
entries; (iii) every vocabulary token has corpus count at least
`min_frequency`; (iv) every token with count at least `min_frequency`
is in the vocabulary unless the vocabulary is full; (v) the frequency
table lists the vocabulary counts in non-increasing order after the
escape entry; (vi) the escape entry is
`(0, max 1 (excluded_total / 10))`; (vii) the truncation keeps the
highest-count tokens: every qualifying token left out of the
vocabulary has count at most every kept count. -/
theorem C5_train_vocabulary (tokens : List Token) (minFrequency : Nat)
    (maxVocabSize : Int) (hmv : 1 ≤ maxVocabSize) :
    ((trainTokens tokens minFrequency maxVocabSize).word_to_id.map Prod.snd =
        List.map (fun i : Nat => (i : Int) + 1)
          (List.range (trainTokens tokens minFrequency maxVocabSize).word_to_id.length)) ∧
      (trainTokens tokens minFrequency maxVocabSize).word_to_id.length ≤
        (maxVocabSize - 1).toNat ∧
      (∀ p ∈ (trainTokens tokens minFrequency maxVocabSize).word_to_id,
        ∃ c, (p.1, c) ∈ countTokens tokens ∧ minFrequency ≤ c) ∧
      (∀ p ∈ countTokens tokens, minFrequency ≤ p.2 →
        (∃ i, (p.1, i) ∈ (trainTokens tokens minFrequency maxVocabSize).word_to_id) ∨
          (trainTokens tokens minFrequency maxVocabSize).word_to_id.length =
            (maxVocabSize - 1).toNat) ∧
      ((trainTokens tokens minFrequency maxVocabSize).word_frequencies.tail.map
        Prod.snd).Sorted (fun a b => b ≤ a) ∧
      (trainTokens tokens minFrequency maxVocabSize).word_frequencies.head? =
        some (ESCAPE_SYMBOL,
          (((max 1 ((((countTokens tokens).filter (fun p =>
            ∀ q ∈ (trainTokens tokens minFrequency maxVocabSize).word_to_id,
              q.1 ≠ p.1)).map Prod.snd).sum / 10)) : Nat) : Int)) ∧
      (∀ p ∈ countTokens tokens, minFrequency ≤ p.2 →
        (∀ q ∈ (trainTokens tokens minFrequency maxVocabSize).word_to_id, q.1 ≠ p.1) →
        ∀ c ∈ (trainTokens tokens minFrequency maxVocabSize).word_frequencies.tail.map
          Prod.snd, (p.2 : Int) ≤ c) := by
  have h0 : (0 : Int) ≤ maxVocabSize - 1 := by linarith
  set counts := countTokens tokens with hcounts
  set sorted := mostCommon counts with hsorted
  set filtered := sorted.filter (fun p => minFrequency ≤ p.2) with hfiltered
  set common := pySliceTo (maxVocabSize - 1) filtered with hcommon
  have hcommon_take : common = filtered.take (maxVocabSize - 1).toNat := by
    rw [hcommon]; unfold pySliceTo; rw [if_pos h0]
  have hw2i : (trainTokens tokens minFrequency maxVocabSize).word_to_id =
      common.enum.map (fun p => (p.2.1, (p.1 : Int) + 1)) := rfl
  have hperm : List.Perm sorted counts := List.perm_insertionSort _ counts
  have hcsub : ∀ p ∈ common, p ∈ counts ∧ minFrequency ≤ p.2 := by
    intro p hp
    rw [hcommon_take] at hp
    have := List.mem_filter.mp ((List.take_sublist _ _).subset hp)
    exact ⟨hperm.mem_iff.mp this.1, by simpa using this.2⟩
  refine ⟨?_, ?_, ?_, ?_, ?_, ?_, ?_⟩
  · rw [hw2i, List.map_map, List.length_map, List.enum_length]
    have hc : (Prod.snd ∘ fun p : Nat × (Token × Nat) => (p.2.1, (p.1 : Int) + 1)) =
        (fun i : Nat => (i : Int) + 1) ∘ Prod.fst := rfl
    rw [hc, ← List.map_map, List.enum_map_fst]
  · rw [hw2i, List.length_map, List.enum_length, hcommon_take, List.length_take]
    exact min_le_left _ _
  · intro p hp
    rw [hw2i] at hp
    obtain ⟨q, hq, rfl⟩ := List.mem_map.mp hp
    have hq2 : q.2 ∈ common := by
      have : q.2 ∈ common.enum.map Prod.snd := List.mem_map_of_mem _ hq
      rwa [List.enum_map_snd] at this
    obtain ⟨hmem, hge⟩ := hcsub q.2 hq2
    exact ⟨q.2.2, by simpa using hmem, hge⟩
  · intro p hp hge
    by_cases hlen : filtered.length ≤ (maxVocabSize - 1).toNat
    · left
      have hpf : p ∈ filtered := by
        rw [hfiltered]
        exact List.mem_filter.mpr ⟨hperm.mem_iff.mpr hp, by simpa using hge⟩
      have hpc : p ∈ common := by
        rw [hcommon_take, List.take_of_length_le hlen]
        exact hpf
      rw [hw2i]
      exact mem_vocab_of_mem_common common p.1 p.2 hpc
    · right
      rw [hw2i, List.length_map, List.enum_length, hcommon_take, List.length_take]
      omega
  · have hsS : sorted.Sorted (fun a b : Token × Nat => b.2 ≤ a.2) := by
      rw [hsorted]
      unfold mostCommon
      haveI : IsTotal (Token × Nat) (fun a b => b.2 ≤ a.2) :=
        ⟨fun a b => le_total b.2 a.2⟩
      haveI : IsTrans (Token × Nat) (fun a b => b.2 ≤ a.2) :=
        ⟨fun _ _ _ h1 h2 => le_trans h2 h1⟩
      exact List.sorted_insertionSort _ _
    have hcS : common.Sorted (fun a b : Token × Nat => b.2 ≤ a.2) := by
      rw [hcommon_take]
      exact List.Pairwise.sublist (List.take_sublist _ _) (hsS.filter _)
    have htail : (trainTokens tokens minFrequency maxVocabSize).word_frequencies.tail =
        common.enum.map (fun p => ((p.1 : Int) + 1, (p.2.2 : Int))) := rfl
    rw [htail, List.map_map]
    have : (Prod.snd ∘ fun p : Nat × (Token × Nat) => ((p.1 : Int) + 1, (p.2.2 : Int))) =
        (fun q : Token × Nat => (q.2 : Int)) ∘ Prod.snd := rfl
    rw [this, ← List.map_map, List.enum_map_snd]
    exact (List.pairwise_map).mpr (hcS.imp (fun h => by exact_mod_cast h))
  · have hkeys : (trainTokens tokens minFrequency maxVocabSize).word_to_id.map Prod.fst =
        common.map Prod.fst := by
      rw [hw2i, List.map_map]
      have : (Prod.fst ∘ fun p : Nat × (Token × Nat) => (p.2.1, (p.1 : Int) + 1)) =
          (fun q : Token × Nat => q.1) ∘ Prod.snd := rfl
      rw [this, ← List.map_map, List.enum_map_snd]
    have hfeq : counts.filter (fun p => (common.lookup p.1).isNone) =
        counts.filter (fun p =>
          ∀ q ∈ (trainTokens tokens minFrequency maxVocabSize).word_to_id, q.1 ≠ p.1) := by
      apply List.filter_congr
      intro p _
      have hiff : (∀ q ∈ common, q.1 ≠ p.1) ↔
          (∀ q ∈ (trainTokens tokens minFrequency maxVocabSize).word_to_id, q.1 ≠ p.1) := by
        constructor
        · intro hall q hq
          rw [hw2i] at hq
          obtain ⟨r, hr, rfl⟩ := List.mem_map.mp hq
          have : r.2 ∈ common := by
            have := List.mem_map_of_mem Prod.snd hr
            rwa [List.enum_map_snd] at this
          exact hall r.2 this
        · intro hall q hq
          obtain ⟨n, hn, hget⟩ := List.mem_iff_getElem.mp hq
          have : (q.1, (n : Int) + 1) ∈
              (trainTokens tokens minFrequency maxVocabSize).word_to_id := by
            rw [hw2i]
            refine List.mem_map.mpr ⟨(n, q), ?_, by simp⟩
            have hn2 : n < common.enum.length := by simpa [List.enum_length] using hn
            have he : common.enum[n] = (n, common[n]) := List.getElem_enum common n _
            rw [hget] at he
            exact he ▸ List.getElem_mem _
          exact hall _ this
      rw [Bool.eq_iff_iff]
      simp only [decide_eq_true_eq]
      exact (lookup_isNone_iff p.1 common).trans hiff
    rw [← hfeq]
    rfl
  · intro p hp hge hexcl c hc
    have htail : (trainTokens tokens minFrequency maxVocabSize).word_frequencies.tail =
        common.enum.map (fun p => ((p.1 : Int) + 1, (p.2.2 : Int))) := rfl
    rw [htail, List.map_map] at hc
    have hcomp : (Prod.snd ∘ fun p : Nat × (Token × Nat) => ((p.1 : Int) + 1, (p.2.2 : Int))) =
        (fun q : Token × Nat => (q.2 : Int)) ∘ Prod.snd := rfl
    rw [hcomp, ← List.map_map, List.enum_map_snd] at hc
    obtain ⟨k, hk, rfl⟩ := List.mem_map.mp hc
    have hpf : p ∈ filtered := by
      rw [hfiltered]
      exact List.mem_filter.mpr ⟨hperm.mem_iff.mpr hp, by simpa using hge⟩
    have hpnc : p ∉ common := by
      intro hpc
      obtain ⟨i, hi⟩ := mem_vocab_of_mem_common common p.1 p.2 hpc
      rw [← hw2i] at hi
      exact hexcl (p.1, i) hi rfl
    have hsS : sorted.Sorted (fun a b : Token × Nat => b.2 ≤ a.2) := by
      rw [hsorted]
      unfold mostCommon
      haveI : IsTotal (Token × Nat) (fun a b => b.2 ≤ a.2) :=
        ⟨fun a b => le_total b.2 a.2⟩
      haveI : IsTrans (Token × Nat) (fun a b => b.2 ≤ a.2) :=
        ⟨fun _ _ _ h1 h2 => le_trans h2 h1⟩
      exact List.sorted_insertionSort _ _
    have hfS : filtered.Sorted (fun a b : Token × Nat => b.2 ≤ a.2) := by
      rw [hfiltered]
      exact hsS.filter _
    have hsplit := List.take_append_drop (maxVocabSize - 1).toNat filtered
    have hpd : p ∈ filtered.drop (maxVocabSize - 1).toNat := by
      rcases List.mem_append.mp
          (show p ∈ filtered.take (maxVocabSize - 1).toNat ++
            filtered.drop (maxVocabSize - 1).toNat by rw [hsplit]; exact hpf)
        with hcase | hcase
      · exact absurd (show p ∈ common by rw [hcommon_take]; exact hcase) hpnc
      · exact hcase
    have hcross : ∀ x ∈ filtered.take (maxVocabSize - 1).toNat,
        ∀ y ∈ filtered.drop (maxVocabSize - 1).toNat, y.2 ≤ x.2 := by
      have hps : List.Pairwise (fun a b : Token × Nat => b.2 ≤ a.2)
          (filtered.take (maxVocabSize - 1).toNat ++
            filtered.drop (maxVocabSize - 1).toNat) := by
        rw [hsplit]
        exact hfS
      exact (List.pairwise_append.mp hps).2.2
    have hk2 : k ∈ filtered.take (maxVocabSize - 1).toNat := by
      rw [← hcommon_take]
      exact hk
    exact_mod_cast hcross k hk2 p hpd

/-- Witness for C5 at a small concrete corpus with truncation active
(three distinct frequent tokens, `max_vocab_size = 3`). -/
theorem C5_train_vocabulary_witness : (1 : Int) ≤ 3 ∧
    (((trainTokens [[97], [98], [97], [98], [99], [99], [97]] 2 3).word_to_id.map Prod.snd =
        List.map (fun i : Nat => (i : Int) + 1)
          (List.range (trainTokens [[97], [98], [97], [98], [99], [99], [97]] 2 3).word_to_id.length)) ∧
      (trainTokens [[97], [98], [97], [98], [99], [99], [97]] 2 3).word_to_id.length ≤
        ((3 : Int) - 1).toNat ∧
      (∀ p ∈ (trainTokens [[97], [98], [97], [98], [99], [99], [97]] 2 3).word_to_id,
        ∃ c, (p.1, c) ∈ countTokens [[97], [98], [97], [98], [99], [99], [97]] ∧ 2 ≤ c) ∧
      (∀ p ∈ countTokens [[97], [98], [97], [98], [99], [99], [97]], 2 ≤ p.2 →
        (∃ i, (p.1, i) ∈ (trainTokens [[97], [98], [97], [98], [99], [99], [97]] 2 3).word_to_id) ∨
          (trainTokens [[97], [98], [97], [98], [99], [99], [97]] 2 3).word_to_id.length =
            ((3 : Int) - 1).toNat) ∧
      ((trainTokens [[97], [98], [97], [98], [99], [99], [97]] 2 3).word_frequencies.tail.map
        Prod.snd).Sorted (fun a b => b ≤ a) ∧
      (trainTokens [[97], [98], [97], [98], [99], [99], [97]] 2 3).word_frequencies.head? =
        some (ESCAPE_SYMBOL,
          (((max 1 ((((countTokens [[97], [98], [97], [98], [99], [99], [97]]).filter (fun p =>
            ∀ q ∈ (trainTokens [[97], [98], [97], [98], [99], [99], [97]] 2 3).word_to_id,
              q.1 ≠ p.1)).map Prod.snd).sum / 10)) : Nat) : Int)) ∧
      (∀ p ∈ countTokens [[97], [98], [97], [98], [99], [99], [97]], 2 ≤ p.2 →
        (∀ q ∈ (trainTokens [[97], [98], [97], [98], [99], [99], [97]] 2 3).word_to_id,
          q.1 ≠ p.1) →
        ∀ c ∈ (trainTokens [[97], [98], [97], [98], [99], [99], [97]] 2
          3).word_frequencies.tail.map Prod.snd, (p.2 : Int) ≤ c)) :=
  ⟨by norm_num, C5_train_vocabulary [[97], [98], [97], [98], [99], [99], [97]] 2 3 (by norm_num)⟩

/-! ## Claim C6 -/

/-- Claim C6, counterexample: constructing an `ArithmeticCoder` from the
empty frequency table does not fail — `__init__` has no failure path.
It returns a coder with `total_freq = 0`, and that coder is even usable:
`encode` of the empty symbol list succeeds (producing the flush byte
`0x40`). -/
theorem C6_counterexample :
    (mkCoder []).total_freq = 0 ∧ (mkCoder []).cum_freq = [] ∧
      encode (mkCoder []) [] = some [64] := by
  decide

/-- Claim C6, amended: construction never fails.  For every frequency
table whose weights sum to zero (in particular the empty table) it
returns a coder that stores the table unchanged and has
`total_freq = 0`; no `EmptyModel` error exists in the code. -/
theorem C6_construction_total (freqs : List (Int × Int))
    (h : (freqs.map Prod.snd).sum = 0) :
    (mkCoder freqs).total_freq = 0 ∧ (mkCoder freqs).frequencies = freqs :=
  ⟨h, rfl⟩

/-- Witness for the amended C6 at the one-entry zero-weight table. -/
theorem C6_construction_total_witness :
    (mkCoder [(5, 0)]).total_freq = 0 ∧ (mkCoder [(5, 0)]).frequencies = [(5, 0)] :=
  C6_construction_total [(5, 0)] (by decide)

/-! ## Claim C7 -/

/-- Claim C7: the header computation of `compress` at a symbol count just
past the 3-byte capacity.  The masked fields
`[(n >> 16) & 0xFF, (n >> 8) & 0xFF, n & 0xFF]` for
`n = 2^24 = 16777216` wrap to `[0, 0, 0]` — byte-identical to the header
of an empty message — instead of failing: the code has no
`InputTooLarge` path and silently truncates the count modulo `2^24`. -/
theorem C7_header_wraps :
    headerBytes (2 ^ 24) 2 = [0, 0, 0, 0, 0, 2] ∧
      headerBytes (2 ^ 24) 2 = headerBytes 0 2 := by
  decide

/-! ## Claim C8 -/

/-- Claim C8, counterexample: training on a corpus with zero tokens does
not fail — there is no `InvalidCorpus` path.  It produces an empty
vocabulary whose frequency table holds only the escape symbol with
weight 1. -/
theorem C8_counterexample :
    (trainTokens [] 2 16384).word_to_id = [] ∧
      (trainTokens [] 2 16384).word_frequencies = [(0, 1)] := by
  decide

/-- Claim C8, amended: for every `min_frequency` and `max_vocab_size`,
training on zero tokens succeeds and returns the empty vocabulary with
escape frequency `max(1, 0 // 10) = 1` and the coder built from it. -/
theorem C8_empty_train_succeeds (minFrequency : Nat) (maxVocabSize : Int) :
    (trainTokens [] minFrequency maxVocabSize).word_to_id = [] ∧
      (trainTokens [] minFrequency maxVocabSize).id_to_word = [(ESCAPE_SYMBOL, UNK)] ∧
      (trainTokens [] minFrequency maxVocabSize).word_frequencies =
        [(ESCAPE_SYMBOL, 1)] ∧
      (trainTokens [] minFrequency maxVocabSize).coder = mkCoder [(ESCAPE_SYMBOL, 1)] := by
  unfold trainTokens
  simp [countTokens, mostCommon, List.insertionSort, pySliceTo_nil]

/-! ## Claim C9 -/

/-- Claim C9, counterexample: a container whose header declares one
symbol and a 5-byte payload, with no payload or sidecar present at all.
`decompress` on a trained compressor does not fail with
`MalformedPayload`: it decodes the zero-extended (empty) payload, meets
the escape symbol, finds the sidecar exhausted and returns the text
`'<UNK>'`. -/
theorem C9_counterexample :
    decompress (trainTokens [[97], [97]] 2 16384) [0, 0, 1, 0, 0, 5] = some UNK := by
  decide

/-- The one genuine failure `decompress` retains, and it is not a
`MalformedPayload`: a sidecar slice that is not valid UTF-8 (here the
lone byte `0xFF` behind a well-formed header and length prefix) makes
the sidecar decode of line 375 raise `UnicodeDecodeError`, modelled as
`none`. -/
theorem decompress_invalid_utf8 :
    decompress (trainTokens [[97], [97]] 2 16384) [0, 0, 1, 0, 0, 0, 1, 255] = none := by
  decide

/-- Claim C9, amended: no `MalformedPayload` error exists in the code —
`decompress` on a trained compressor never detects a disagreement
between the header and the bytes actually present: a payload shorter
than declared is read as zero bits, and a sidecar shorter than the
escape symbols demand yields `'<UNK>'` substitutions.  The only error
`decompress` can raise is the `UnicodeDecodeError` of decoding an
invalid-UTF-8 sidecar slice (see `decompress_invalid_utf8`), so on
every all-ASCII input — where no slice can be invalid — some text is
returned, however malformed the header.  (Stated for a trained total
frequency of at most `QUARTER = 2^30`, which holds for every corpus of
fewer than about `2^29` tokens; beyond that the decoder is not even
well defined.) -/
theorem C9_decompress_total (tokens : List Token) (minFrequency : Nat)
    (maxVocabSize : Int) (compressed : List Nat)
    (hTQ : (trainTokens tokens minFrequency maxVocabSize).coder.total_freq ≤ QUARTER)
    (hascii : ∀ b ∈ compressed, b < 128) :
    ∃ text, decompress (trainTokens tokens minFrequency maxVocabSize) compressed =
      some text :=
  decompress_total_of _ ((trainTokens tokens minFrequency maxVocabSize).word_frequencies)
    rfl (trainTokens_freq_pos tokens minFrequency maxVocabSize) hTQ compressed hascii

/-- Witness for the amended C9: a header declaring 3 symbols and 100
payload bytes over no bytes at all still decompresses to some text. -/
theorem C9_decompress_total_witness :
    ((trainTokens [] 2 16384).coder.total_freq ≤ QUARTER) ∧
    (∀ b ∈ ([0, 0, 3, 0, 0, 100] : List Nat), b < 128) ∧
    ∃ text, decompress (trainTokens [] 2 16384) [0, 0, 3, 0, 0, 100] = some text :=
  ⟨by decide, by decide,
    C9_decompress_total [] 2 16384 [0, 0, 3, 0, 0, 100] (by decide) (by decide)⟩

/-! ## Claim C10 -/

/-- Claim C10: on a trained compressor, every input shorter than the
6-byte header makes `decompress` return the empty string (no words are
decoded, and the join of no words is empty); no error is raised. -/
theorem C10_short_returns_empty (tc : TextCompressor) (data : List Nat)
    (h : data.length < 6) : decompress tc data = some [] := by
  unfold decompress decompressWords
  simp [h, joinWords]

/-- Witness for C10 at a 3-byte input and a concrete trained state. -/
theorem C10_short_returns_empty_witness :
    ([1, 2, 3] : List Nat).length < 6 ∧
      decompress (trainTokens [] 2 16384) [1, 2, 3] = some [] :=
  ⟨by decide, C10_short_returns_empty (trainTokens [] 2 16384) [1, 2, 3] (by decide)⟩

end ACV
